import Mathlib

/-!
# Sliding-window memory-mapped file reader (`mm_file`)

A shallow embedding of `src/mm_file.cpp`, `src/mm_file.h` and the consumer loop
of `src/main.cpp`.

* `size_t` is a 64-bit unsigned integer (the source asserts
  `sizeof(size_t) == sizeof(uint64_t)`); values are `Nat`, and every `+` / `-`
  of the source that can wrap is `wadd` / `wsub` (arithmetic modulo `2 ^ 64`).
* The operating system is an oracle: an operation that may issue one mapping
  request receives the outcome of that request (`none`: the request is
  rejected, `some a`: a view with base address `a`), and returns the list of
  OS calls it issued, in order.  For the mapping calls the POSIX branch
  (`mmap` / `munmap`) is the one embedded; `open` and `close` are embedded
  once for each branch of the conditional compilation.
* A pointer is `Option Nat`: `none` is `nullptr`, `some a` the address `a`.
  The OS places a view inside the address space, so `view + offset` is not
  reduced modulo `2 ^ 64`; the offset itself is a `size_t` difference.
* The allocation granularity `_si.offsetAlign()` is the parameter `g`.  The
  source divides by it, so every statement assumes `0 < g`.
-/

namespace mm_file

/-! ## Machine arithmetic -/

/-- Modulus of `size_t` arithmetic: `2 ^ 64`. -/
def W : Nat := 18446744073709551616

/-- Addition of two `size_t` values. -/
def wadd (a b : Nat) : Nat := (a + b) % W

/-- Subtraction of two `size_t` values. -/
def wsub (a b : Nat) : Nat := (a + (W - b % W)) % W

/-! ## The operating system -/

/-- A live view: base address, file offset and length of a mapping. -/
structure Mapping where
  addr : Nat
  offset : Nat
  length : Nat
  deriving DecidableEq

/-- One call to the OS.  `mmap length offset result` is
`mmap(nullptr, length, PROT_READ, MAP_PRIVATE, _file, offset)` together with
what it returned; `munmap addr length` is `munmap(addr, length)`. -/
inductive OsCall where
  | mmap (length offset : Nat) (result : Option Nat)
  | munmap (addr : Option Nat) (length : Nat)
  deriving DecidableEq

/-- State of the OS as far as one cursor is concerned: the live views, and the
number of `munmap` calls that did not name a live view with its own length. -/
structure OsState where
  live : List Mapping
  faults : Nat
  deriving DecidableEq

/-- Effect of one OS call.  A successful `mmap` adds a view; `munmap` releases
the live view with that base address and that length, and is counted as a fault
when there is none (null address, unknown address or wrong length). -/
def OsState.step (s : OsState) : OsCall → OsState
  | .mmap length offset (some a) =>
      { s with live := s.live ++ [{ addr := a, offset := offset, length := length }] }
  | .mmap _ _ none => s
  | .munmap (some a) length =>
      if s.live.any (fun m => decide (m.addr = a ∧ m.length = length)) then
        { s with live := s.live.filter (fun m => !decide (m.addr = a ∧ m.length = length)) }
      else { s with faults := s.faults + 1 }
  | .munmap none _ => { s with faults := s.faults + 1 }

/-- Effect of a sequence of OS calls. -/
def OsState.run (s : OsState) (calls : List OsCall) : OsState :=
  calls.foldl OsState.step s

/-- Byte read through address `a`: the file byte behind the live view that
contains `a`, a view mapped at `(offset, length)` showing the file bytes
`[offset, offset + length)`. -/
def OsState.byteAt (s : OsState) (file : List Nat) (a : Nat) : Option Nat :=
  match s.live.find? (fun m => decide (m.addr ≤ a ∧ a < m.addr + m.length)) with
  | some m => file[m.offset + (a - m.addr)]?
  | none => none

/-! ## `sys_info::align` -/

/-- `sys_info::align`: rounds `val` down to a multiple of the granularity;
returns the new `val` and the remainder `dx` that was subtracted. -/
def align (g val : Nat) : Nat × Nat :=
  let dx := val % g
  (val - dx, dx)

/-! ## `mm_file::Cursor` -/

/-- Data members of `mm_file::Cursor` (`_parent` is the file, passed to every
operation as its size). -/
structure Cursor where
  view : Option Nat
  filePos : Nat
  blockPos : Nat
  blockSize : Nat
  max_buf_size : Nat
  deriving DecidableEq

/-- The private constructor `Cursor(buf_size, parent)`. -/
def Cursor.new (buf_size : Nat) : Cursor :=
  { view := none, filePos := 0, blockPos := 0, blockSize := buf_size, max_buf_size := buf_size }

/-- The destructor `~Cursor`: OS calls it issues. -/
def Cursor.destroy (r : Cursor) : List OsCall :=
  match r.view with
  | some v => [OsCall.munmap (some v) r.blockSize]
  | none => []

/-- The views a cursor owns according to its own fields. -/
def Cursor.views (r : Cursor) : List Mapping :=
  match r.view with
  | some v => [{ addr := v, offset := r.blockPos, length := r.blockSize }]
  | none => []

/-- Result of `mm_file::seek`: the returned pointer, the cursor afterwards and
the OS calls issued. -/
structure SeekResult where
  ptr : Option Nat
  cursor : Cursor
  calls : List OsCall
  deriving DecidableEq

/-- The function `mm_file::seek(Cursor& r, pos, prepare_for_read_len)`.  The
first `match` is lines 231-233: the fast path answers from the view `v` when
`r._view` is non-null and the window test passes; otherwise a non-null view is
released (lines 239-244) and the window is placed anew (lines 247-264). -/
def seek (g fileSize : Nat) (os : Option Nat) (r : Cursor) (pos prepare_for_read_len : Nat) :
    SeekResult :=
  let right_pos := wadd pos prepare_for_read_len
  if fileSize = 0 ∨ right_pos > fileSize then
    { ptr := none, cursor := r, calls := [] }
  else
    match (if pos ≥ r.blockPos ∧ right_pos ≤ wadd r.blockPos r.blockSize then r.view else none) with
    | some v =>
        let r1 := { r with filePos := pos }
        { ptr := some (v + wsub r1.filePos r1.blockPos), cursor := r1, calls := [] }
    | none =>
        let unmaps : List OsCall :=
          match r.view with
          | some v => [OsCall.munmap (some v) r.blockSize]
          | none => []
        let r2 := { r with view := none }
        let r3 := { r2 with blockPos := pos, filePos := pos }
        let a := align g r3.blockPos
        let r4 := { r3 with blockPos := a.1 }
        let dx := a.2
        let r5 := { r4 with blockSize := wadd prepare_for_read_len dx }
        let r6 :=
          if r5.blockSize < r5.max_buf_size then
            let r51 := { r5 with blockSize := r5.max_buf_size }
            let sz := wsub fileSize r51.blockPos
            if sz < r51.blockSize then
              let r52 := { r51 with blockPos := (align g (wsub fileSize r51.blockSize)).1 }
              { r52 with blockSize := wsub fileSize r52.blockPos }
            else r51
          else r5
        let call := OsCall.mmap r6.blockSize r6.blockPos os
        match os with
        | some v =>
            let r7 := { r6 with view := some v }
            { ptr := some (v + wsub r7.filePos r7.blockPos), cursor := r7,
              calls := unmaps ++ [call] }
        | none =>
            { ptr := none,
              cursor := { r6 with view := none, blockPos := 0, filePos := 0, blockSize := 0 },
              calls := unmaps ++ [call] }

/-- Result of `Cursor::seek`: pointer, the value of the reference parameter
`ready_for_read_len` afterwards, the cursor afterwards, the OS calls issued. -/
structure CursorSeekResult where
  ptr : Option Nat
  ready : Nat
  cursor : Cursor
  calls : List OsCall
  deriving DecidableEq

/-- The inline `Cursor::seek(pos, ready_for_read_len, prepare_for_read_len)`;
`ready_for_read_len` is the value the reference parameter holds on entry and is
written only when a pointer is returned. -/
def Cursor.seek (g fileSize : Nat) (os : Option Nat) (r : Cursor)
    (pos ready_for_read_len prepare_for_read_len : Nat) : CursorSeekResult :=
  let s := mm_file.seek g fileSize os r pos prepare_for_read_len
  match s.ptr with
  | some p =>
      { ptr := some p,
        ready := wsub s.cursor.blockSize (wsub s.cursor.filePos s.cursor.blockPos),
        cursor := s.cursor, calls := s.calls }
  | none => { ptr := none, ready := ready_for_read_len, cursor := s.cursor, calls := s.calls }

/-- The function `Cursor::resetBufferSize()`: returned flag, cursor afterwards
and OS calls issued. -/
def Cursor.resetBufferSize (g fileSize : Nat) (os : Option Nat) (r : Cursor) :
    Bool × Cursor × List OsCall :=
  if r.blockSize ≤ r.max_buf_size then (true, r, [])
  else
    let call := OsCall.munmap r.view r.blockSize
    let r1 := { r with view := none }
    let cur_pos := r1.filePos
    let r2 := { r1 with blockSize := 0, filePos := 0 }
    let s := Cursor.seek g fileSize os r2 cur_pos 0 0
    (s.ptr.isSome, s.cursor, call :: s.calls)

/-- The function `mm_file::map(pos, prepare_for_read_len, buf_size)`: the
cursor (`none`: a null `unique_ptr`) and the OS calls issued. -/
def map (g fileSize : Nat) (os : Option Nat) (pos prepare_for_read_len buf_size : Nat) :
    Option Cursor × List OsCall :=
  let right_pos := wadd pos prepare_for_read_len
  if fileSize = 0 ∨ right_pos > fileSize then (none, [])
  else
    let buf_size1 := (buf_size / g) * g
    let buf_size2 := if buf_size1 > fileSize then fileSize else buf_size1
    let m := Cursor.new buf_size2
    let m1 := { m with filePos := pos }
    let m2 := { m1 with blockPos := pos }
    let a := align g m2.blockPos
    let m3 := { m2 with blockPos := a.1 }
    let dx := a.2
    let m4 := { m3 with blockSize := wadd prepare_for_read_len dx }
    let m5 :=
      if m4.blockSize < m4.max_buf_size then
        let m41 := { m4 with blockSize := m4.max_buf_size }
        let sz := wsub fileSize m41.blockPos
        if sz < m41.blockSize then
          let m42 := { m41 with blockPos := (align g (wsub fileSize m41.blockSize)).1 }
          { m42 with blockSize := wsub fileSize m42.blockPos }
        else m41
      else m4
    let call := OsCall.mmap m5.blockSize m5.blockPos os
    match os with
    | some v => (some { m5 with view := some v }, [call])
    | none => (none, [call])

/-! ## Cursors a consumer can hold -/

/-- What a consumer can do to a cursor it holds: `Steps g fileSize c st c1 st1`
says that some sequence of `Cursor::seek` and `Cursor::resetBufferSize` calls
(arguments any `size_t` values, the OS answering every mapping request as it
likes) takes the cursor `c` and OS state `st` to `c1` and `st1`. -/
inductive Steps (g fileSize : Nat) (c : Cursor) (st : OsState) : Cursor → OsState → Prop where
  | refl : Steps g fileSize c st c st
  | seek (c1 : Cursor) (st1 : OsState) (os : Option Nat) (pos ready want : Nat) :
      Steps g fileSize c st c1 st1 → pos < W → want < W →
      Steps g fileSize c st (Cursor.seek g fileSize os c1 pos ready want).cursor
        (st1.run (Cursor.seek g fileSize os c1 pos ready want).calls)
  | resetBufferSize (c1 : Cursor) (st1 : OsState) (os : Option Nat) :
      Steps g fileSize c st c1 st1 →
      Steps g fileSize c st (c1.resetBufferSize g fileSize os).2.1
        (st1.run (c1.resetBufferSize g fileSize os).2.2)

/-- Cursors a consumer can obtain, each with the OS state its calls have
produced: the cursor returned by a successful `map` (arguments any `size_t`
values), and what any sequence of `Cursor::seek` and `Cursor::resetBufferSize`
calls makes of it. -/
def Reachable (g fileSize : Nat) (c : Cursor) (st : OsState) : Prop :=
  ∃ (os : Option Nat) (pos want buf : Nat) (c0 : Cursor) (calls : List OsCall),
    pos < W ∧ want < W ∧ buf < W ∧
    mm_file.map g fileSize os pos want buf = (some c0, calls) ∧
    Steps g fileSize c0 (OsState.run { live := [], faults := 0 } calls) c st

/-- Summary of the placement steps that `seek` (lines 247-264) and `map` (lines
186-204) both spell out: start and size of the window requested for `pos`,
`want` under the ceiling `max_buf_size`.  Used to state lemmas only. -/
def window (g fileSize max_buf_size pos want : Nat) : Nat × Nat :=
  let a := align g pos
  let size := wadd want a.2
  if size < max_buf_size then
    if wsub fileSize a.1 < max_buf_size then
      let b := (align g (wsub fileSize max_buf_size)).1
      (b, wsub fileSize b)
    else (a.1, max_buf_size)
  else (a.1, size)

/-- What every reachable cursor satisfies, whatever requests it has served
(wrapping ones included): its window ceiling is at most the file size, the live
views are the one it records, a null view goes with a zero block size, the
window start is aligned, and the window either lies inside the file, or wraps
the address range, or starts past the end of the file.  Used to state lemmas
only. -/
def Consistent (g fileSize : Nat) (c : Cursor) (st : OsState) : Prop :=
  c.max_buf_size ≤ fileSize ∧ st = { live := c.views, faults := 0 } ∧
  (c.view = none → c.blockSize = 0) ∧ c.blockPos % g = 0 ∧
  c.filePos < W ∧ c.blockPos < W ∧ c.blockSize < W ∧
  (c.view ≠ none →
    c.blockPos + c.blockSize ≤ fileSize ∨ W ≤ c.blockPos + c.blockSize ∨ fileSize < c.blockPos)

/-! ## `mm_file::read` -/

/-- The constant `mm_file::END_OF_FILE`. -/
def END_OF_FILE : Int := -1

/-- The conversion `static_cast<long long>` of a `size_t` value: values from
`2 ^ 63` on come out negative. -/
def toLongLong (n : Nat) : Int :=
  if n < 9223372036854775808 then (n : Int) else (n : Int) - (W : Int)

/-- Result of `mm_file::read`: the returned `long long`, what `*pStr` holds
afterwards, the cursor afterwards and the OS calls issued. -/
structure ReadResult where
  ret : Int
  pStr : Option Nat
  cursor : Cursor
  calls : List OsCall
  deriving DecidableEq

/-- The private helper `mm_file::read(Cursor& r, pStr, len)`; `pStr` is what
`*pStr` holds on entry.  The local `actual_len` is indeterminate before the
call of `Cursor::seek` and is read only when that call returned a pointer. -/
def read (g fileSize : Nat) (os : Option Nat) (r : Cursor) (pStr : Option Nat) (len : Nat) :
    ReadResult :=
  let max_len := wsub fileSize r.filePos
  let len1 := if len > max_len then max_len else len
  if len1 ≠ 0 then
    let s := Cursor.seek g fileSize os r r.filePos 0 len1
    match s.ptr with
    | some p =>
        { ret := toLongLong s.ready, pStr := some p,
          cursor := { s.cursor with filePos := wadd s.cursor.filePos s.ready },
          calls := s.calls }
    | none => { ret := END_OF_FILE, pStr := none, cursor := s.cursor, calls := s.calls }
  else { ret := 0, pStr := pStr, cursor := r, calls := [] }

/-- As `Steps`, with calls of the helper `mm_file::read` allowed as well. -/
inductive StepsWithRead (g fileSize : Nat) (c : Cursor) (st : OsState) :
    Cursor → OsState → Prop where
  | refl : StepsWithRead g fileSize c st c st
  | seek (c1 : Cursor) (st1 : OsState) (os : Option Nat) (pos ready want : Nat) :
      StepsWithRead g fileSize c st c1 st1 → pos < W → want < W →
      StepsWithRead g fileSize c st (Cursor.seek g fileSize os c1 pos ready want).cursor
        (st1.run (Cursor.seek g fileSize os c1 pos ready want).calls)
  | resetBufferSize (c1 : Cursor) (st1 : OsState) (os : Option Nat) :
      StepsWithRead g fileSize c st c1 st1 →
      StepsWithRead g fileSize c st (c1.resetBufferSize g fileSize os).2.1
        (st1.run (c1.resetBufferSize g fileSize os).2.2)
  | read (c1 : Cursor) (st1 : OsState) (os : Option Nat) (pStr : Option Nat) (len : Nat) :
      StepsWithRead g fileSize c st c1 st1 → len < W →
      StepsWithRead g fileSize c st (mm_file.read g fileSize os c1 pStr len).cursor
        (st1.run (mm_file.read g fileSize os c1 pStr len).calls)

/-- Cursors obtained from a successful `map` by any sequence of `Cursor::seek`,
`Cursor::resetBufferSize` and `mm_file::read` calls, with the OS state. -/
def ReachableWithRead (g fileSize : Nat) (c : Cursor) (st : OsState) : Prop :=
  ∃ (os : Option Nat) (pos want buf : Nat) (c0 : Cursor) (calls : List OsCall),
    pos < W ∧ want < W ∧ buf < W ∧
    mm_file.map g fileSize os pos want buf = (some c0, calls) ∧
    StepsWithRead g fileSize c0 (OsState.run { live := [], faults := 0 } calls) c st

/-! ## Opening and closing the file

The data members `_file`, `_fileSize` (and `_mem` under `_MSC_VER`) with the
constructor, `open`, `close`, `isOpen` and `size`, once for each branch of the
conditional compilation.  `path` is `none` for a null pointer.  The OS answers
the calls of one `open` through an oracle record. -/

/-- State of an `mm_file` object in the POSIX branch: `_file` is a file
descriptor, `INVALID_FILE_HANDLE` is `-1`. -/
structure posix.State where
  file : Int
  fileSize : Nat
  deriving DecidableEq

/-- Answers of the OS to one `open` in the POSIX branch: `fd` is what `::open`
returns (`none`: `-1`), `fstat` what `fstat` reports (`none`: it failed, `some
n`: it succeeded with `st_size = n`). -/
structure posix.Os where
  fd : Option Nat
  fstat : Option Nat
  deriving DecidableEq

/-- The function `mm_file::close`, POSIX branch. -/
def posix.close (s : posix.State) : posix.State :=
  if s.file ≠ -1 then { file := -1, fileSize := 0 } else s

/-- The function `mm_file::open`, POSIX branch: returned flag and state. -/
def posix.open (s : posix.State) (path : Option String) (os : posix.Os) : Bool × posix.State :=
  let s0 := posix.close s
  match path with
  | none => (false, s0)
  | some _ =>
      let s1 : posix.State :=
        { s0 with file := match os.fd with
                          | some fd => (fd : Int)
                          | none => -1 }
      if s1.file < 0 then (false, s1)
      else
        match os.fstat with
        | none => (false, { s1 with file := -1 })
        | some st_size =>
            if st_size = 0 then (false, { s1 with file := -1 })
            else (true, { s1 with fileSize := st_size })

/-- The constructor `mm_file::mm_file(path)`, POSIX branch. -/
def posix.new (path : Option String) (os : posix.Os) : posix.State :=
  (posix.open { file := -1, fileSize := 0 } path os).2

/-- The function `mm_file::isOpen`, POSIX branch. -/
def posix.isOpen (s : posix.State) : Bool := decide (s.file ≠ -1)

/-- The function `mm_file::size`, POSIX branch. -/
def posix.size (s : posix.State) : Nat := s.fileSize

/-- A WinAPI `HANDLE` as far as the source tells values apart: `NULL`,
`INVALID_HANDLE_VALUE`, or a handle issued by the OS. -/
inductive Handle where
  | null
  | invalid
  | valid (h : Nat)
  deriving DecidableEq

/-- State of an `mm_file` object in the `_MSC_VER` branch;
`INVALID_FILE_HANDLE` is `INVALID_HANDLE_VALUE`. -/
structure msvc.State where
  file : Handle
  mem : Handle
  fileSize : Nat
  deriving DecidableEq

/-- Answers of the OS to one `open` in the `_MSC_VER` branch: `createFile` is
what `CreateFileA` returns (`none`: `INVALID_HANDLE_VALUE`), `getFileSizeEx`
what `GetFileSizeEx` reports (`none`: it returned `FALSE`, `some n`: `QuadPart
= n`), `createFileMapping` what `CreateFileMapping` returns (`none`: `NULL`). -/
structure msvc.Os where
  createFile : Option Nat
  getFileSizeEx : Option Nat
  createFileMapping : Option Nat
  deriving DecidableEq

/-- The function `mm_file::close`, `_MSC_VER` branch. -/
def msvc.close (s : msvc.State) : msvc.State :=
  if s.file ≠ Handle.invalid then
    let s1 :=
      if s.mem ≠ Handle.null ∧ s.mem ≠ Handle.invalid then { s with mem := Handle.invalid }
      else s
    { s1 with file := Handle.invalid, fileSize := 0 }
  else s

/-- The function `mm_file::open`, `_MSC_VER` branch: returned flag and state. -/
def msvc.open (s : msvc.State) (path : Option String) (os : msvc.Os) : Bool × msvc.State :=
  let s0 := msvc.close s
  match path with
  | none => (false, s0)
  | some _ =>
      let s1 : msvc.State :=
        { s0 with file := match os.createFile with
                          | some h => Handle.valid h
                          | none => Handle.invalid }
      if s1.file = Handle.invalid then (false, s1)
      else
        let s2 : msvc.State :=
          match os.getFileSizeEx with
          | some sz =>
              if sz ≠ 0 then
                { s1 with
                  fileSize := sz,
                  mem := match os.createFileMapping with
                         | some h => Handle.valid h
                         | none => Handle.null }
              else s1
          | none => s1
        if s2.mem = Handle.null then (false, { s2 with file := Handle.invalid })
        else (true, s2)

/-- The constructor `mm_file::mm_file(path)`, `_MSC_VER` branch. -/
def msvc.new (path : Option String) (os : msvc.Os) : msvc.State :=
  (msvc.open { file := Handle.invalid, mem := Handle.invalid, fileSize := 0 } path os).2

/-- The function `mm_file::isOpen`, `_MSC_VER` branch. -/
def msvc.isOpen (s : msvc.State) : Bool := decide (s.file ≠ Handle.invalid)

/-- The function `mm_file::size`, `_MSC_VER` branch. -/
def msvc.size (s : msvc.State) : Nat := s.fileSize

end mm_file

/-! ## The consumer loop of `main.cpp` -/

namespace file_hash

open mm_file

/-- The constant `mm_file::DEFAULT_BUFFER_SIZE`. -/
def DEFAULT_BUFFER_SIZE : Nat := 256 * 1024 * 1024

/-- One call `ah.Update(data, bytes_available)` of `main`, recorded together
with the file position `pos` the pointer was obtained for and the state `mem`
of the OS at the time of the call, whose live views the digest reads through. -/
structure Chunk where
  pos : Nat
  data : Nat
  len : Nat
  mem : OsState
  deriving DecidableEq

/-- The bytes the digest reads in one `ah.Update(data, len)`: the `len` bytes
at the addresses `data, data + 1, ...`, each read through the views that are
live at the time of the call (`none`: no live view holds the address, or the
view shows no file byte there). -/
def Chunk.bytes (file : List Nat) (c : Chunk) : List (Option Nat) :=
  (List.range c.len).map (fun i => c.mem.byteAt file (c.data + i))

/-- How the scan of one file ends: `noView` is the early return "can't create
memory-view", `finished` the loop condition `file_size` turning false, `broke`
the `break` on a null pointer; the last two carry the final `pos` and the
chunks handed to the digest, in order. -/
inductive ScanOutcome where
  | noView
  | finished (pos : Nat) (delivered : List Chunk)
  | broke (pos : Nat) (delivered : List Chunk)
  deriving DecidableEq

/-- The `for` loop of `main` (lines 69-82), with `B` for the block size
`DEFAULT_BUFFER_SIZE`.  `os k` answers the mapping request of iteration `k`,
`st` is the state of the OS, advanced by the OS calls of every `seek`; `none`
is returned when `fuel` iterations were not enough. -/
def main_loop (g fileSize B : Nat) (os : Nat → Option Nat) :
    Nat → Nat → Cursor → OsState → Nat → Nat → Nat → List Chunk → Option ScanOutcome
  | 0, _, _, _, _, _, _, _ => none
  | fuel + 1, k, cursor, st, pos, bytes_available, file_size, delivered =>
      if file_size = 0 then some (ScanOutcome.finished pos delivered)
      else
        let block_size := if file_size > B then B else file_size
        let s := Cursor.seek g fileSize (os k) cursor pos bytes_available block_size
        let st1 := st.run s.calls
        let pos1 := wadd pos s.ready
        let file_size1 := wsub file_size s.ready
        match s.ptr with
        | none => some (ScanOutcome.broke pos1 delivered)
        | some data =>
            main_loop g fileSize B os fuel (k + 1) s.cursor st1 pos1 s.ready file_size1
              (delivered ++ [{ pos := pos, data := data, len := s.ready, mem := st1 }])

/-- Lines 59-82 of `main` for one opened file of size `fileSize`: `map(0, 0,
maxWindow)`, then the loop.  `os0` answers the mapping request of `map`,
`bytes0` is the indeterminate initial value of `bytes_available`; the OS
starts without a live view; the source has `B = maxWindow =
DEFAULT_BUFFER_SIZE`. -/
def main (g fileSize B maxWindow : Nat) (os0 : Option Nat) (os : Nat → Option Nat)
    (bytes0 fuel : Nat) : Option ScanOutcome :=
  let file_size := fileSize
  let m := mm_file.map g fileSize os0 0 0 maxWindow
  match m.1 with
  | none => some ScanOutcome.noView
  | some cursor =>
      main_loop g fileSize B os fuel 0 cursor (OsState.run { live := [], faults := 0 } m.2)
        0 bytes0 file_size []

end file_hash

namespace mm_file

/-! ## Lemmas: the three paths of `seek`, the window, the invariant -/

theorem W_eq_two_pow : W = 2 ^ 64 := by
  norm_num [W]

theorem align_fst_mod (g x : Nat) : (align g x).1 % g = 0 := by
  simp only [align]
  exact Nat.sub_mod_eq_zero_of_mod_eq (by simp)

theorem seek_range_fail (g N : Nat) (os : Option Nat) (r : Cursor) (pos want : Nat)
    (h : N = 0 ∨ N < wadd pos want) :
    seek g N os r pos want = { ptr := none, cursor := r, calls := [] } := by
  unfold seek
  simp only [gt_iff_lt]
  rw [if_pos h]

theorem seek_fast (g N : Nat) (os : Option Nat) (r : Cursor) (pos want v : Nat)
    (h : ¬(N = 0 ∨ N < wadd pos want)) (hv : r.view = some v) (h1 : r.blockPos ≤ pos)
    (h2 : wadd pos want ≤ wadd r.blockPos r.blockSize) :
    seek g N os r pos want =
      { ptr := some (v + wsub pos r.blockPos), cursor := { r with filePos := pos }, calls := [] } := by
  unfold seek
  simp only [gt_iff_lt, ge_iff_le]
  rw [if_neg h, if_pos ⟨h1, h2⟩, hv]

theorem seek_slow (g N : Nat) (os : Option Nat) (r : Cursor) (pos want : Nat)
    (h : ¬(N = 0 ∨ N < wadd pos want))
    (hs : r.view = none ∨ ¬(r.blockPos ≤ pos ∧ wadd pos want ≤ wadd r.blockPos r.blockSize)) :
    seek g N os r pos want =
      { ptr := os.map (fun v => v + wsub pos (window g N r.max_buf_size pos want).1),
        cursor :=
          match os with
          | some v =>
              { view := some v, filePos := pos,
                blockPos := (window g N r.max_buf_size pos want).1,
                blockSize := (window g N r.max_buf_size pos want).2,
                max_buf_size := r.max_buf_size }
          | none =>
              { view := none, filePos := 0, blockPos := 0, blockSize := 0,
                max_buf_size := r.max_buf_size },
        calls := r.destroy ++
          [OsCall.mmap (window g N r.max_buf_size pos want).2
            (window g N r.max_buf_size pos want).1 os] } := by
  have hm : (if pos ≥ r.blockPos ∧ wadd pos want ≤ wadd r.blockPos r.blockSize then r.view
      else none) = none := by
    rcases hs with hs | hs
    · simp [hs]
    · simp only [ge_iff_le]; rw [if_neg hs]
  unfold seek
  simp only [gt_iff_lt]
  rw [if_neg h, hm]
  simp only [window, Cursor.destroy]
  cases os <;> split_ifs <;> simp

theorem map_range_fail (g N : Nat) (os : Option Nat) (pos want buf : Nat)
    (h : N = 0 ∨ N < wadd pos want) : mm_file.map g N os pos want buf = (none, []) := by
  unfold mm_file.map
  simp only [gt_iff_lt]
  rw [if_pos h]

theorem map_placed (g N : Nat) (os : Option Nat) (pos want buf : Nat)
    (h : ¬(N = 0 ∨ N < wadd pos want)) :
    mm_file.map g N os pos want buf =
      (os.map (fun v =>
          { view := some v, filePos := pos,
            blockPos := (window g N (min (buf / g * g) N) pos want).1,
            blockSize := (window g N (min (buf / g * g) N) pos want).2,
            max_buf_size := min (buf / g * g) N }),
        [OsCall.mmap (window g N (min (buf / g * g) N) pos want).2
          (window g N (min (buf / g * g) N) pos want).1 os]) := by
  have hb : (if buf / g * g > N then N else buf / g * g) = min (buf / g * g) N := by
    split_ifs with hc
    · exact (Nat.min_eq_right (Nat.le_of_lt hc)).symm
    · exact (Nat.min_eq_left (Nat.le_of_not_lt hc)).symm
  unfold mm_file.map
  simp only [gt_iff_lt]
  rw [if_neg h]
  simp only [gt_iff_lt] at hb
  simp only [hb, window, Cursor.new]
  cases os <;> split_ifs <;> simp

/-- Window facts for a request that does not wrap and lies inside the file. -/
theorem window_legit (g N mx pos want : Nat) (hN : N < W) (hmx : mx ≤ N)
    (hr : pos + want ≤ N) :
    (window g N mx pos want).1 ≤ pos ∧
    pos + want ≤ (window g N mx pos want).1 + (window g N mx pos want).2 ∧
    (window g N mx pos want).1 + (window g N mx pos want).2 ≤ N := by
  have hdx := Nat.mod_le pos g
  have hb := Nat.mod_le (wsub N mx) g
  have hws : wsub N mx = N - mx := by simp only [wsub, W] at *; omega
  simp only [window, align]
  split_ifs with h1 h2
  · simp only [wsub, wadd, W] at *
    omega
  · simp only [wsub, wadd, W] at *
    omega
  · simp only [wsub, wadd, W] at *
    omega

theorem window_aligned (g N mx pos want : Nat) : (window g N mx pos want).1 % g = 0 := by
  simp only [window]
  split_ifs <;> exact align_fst_mod _ _

theorem window_lt (g N mx pos want : Nat) (hN : N < W) (hp : pos < W) (hmx : mx ≤ N) :
    (window g N mx pos want).1 < W ∧ (window g N mx pos want).2 < W := by
  have hdx := Nat.mod_le pos g
  have hb := Nat.mod_le (wsub N mx) g
  simp only [window, align]
  split_ifs with h1 h2
  · simp only [wsub, wadd, W] at *
    omega
  · simp only [wsub, wadd, W] at *
    omega
  · simp only [wsub, wadd, W] at *
    omega

/-- Window fact for any request that passes the range check, wrapping or not. -/
theorem window_any (g N mx pos want : Nat) (hN : N < W) (hr : wadd pos want ≤ N) :
    (window g N mx pos want).1 + (window g N mx pos want).2 ≤ N ∨
    W ≤ (window g N mx pos want).1 + (window g N mx pos want).2 ∨
    N < (window g N mx pos want).1 := by
  have hdx := Nat.mod_le pos g
  have hb := Nat.mod_le (wsub N mx) g
  simp only [window, align]
  split_ifs with h1 h2
  · simp only [wsub, wadd, W] at *
    omega
  · simp only [wsub, wadd, W] at *
    omega
  · simp only [wsub, wadd, W] at *
    omega

theorem run_destroy (r : Cursor) :
    OsState.run { live := r.views, faults := 0 } r.destroy = { live := [], faults := 0 } := by
  cases hv : r.view <;> simp [OsState.run, OsState.step, Cursor.views, Cursor.destroy, hv]

theorem run_append (st : OsState) (xs ys : List OsCall) :
    st.run (xs ++ ys) = (st.run xs).run ys := by
  simp [OsState.run, List.foldl_append]

theorem run_remap (r : Cursor) (len off : Nat) (os : Option Nat) :
    OsState.run { live := r.views, faults := 0 } (r.destroy ++ [OsCall.mmap len off os]) =
      { live := match os with
          | some v => [{ addr := v, offset := off, length := len }]
          | none => [],
        faults := 0 } := by
  rw [run_append, run_destroy]
  cases os <;> simp [OsState.run, OsState.step]

theorem seek_consistent (g N : Nat) (hN : N < W) (os : Option Nat) (c : Cursor) (st : OsState)
    (pos want : Nat) (hp : pos < W) (h : Consistent g N c st) :
    Consistent g N (seek g N os c pos want).cursor (st.run (seek g N os c pos want).calls) := by
  obtain ⟨hmax, hst, hnone, hal, hfp, hbp, hbs, hwin⟩ := h
  subst hst
  by_cases hrf : N = 0 ∨ N < wadd pos want
  · rw [seek_range_fail g N os c pos want hrf]
    exact ⟨hmax, rfl, hnone, hal, hfp, hbp, hbs, hwin⟩
  · by_cases hs : c.view = none ∨
        ¬(c.blockPos ≤ pos ∧ wadd pos want ≤ wadd c.blockPos c.blockSize)
    · rw [seek_slow g N os c pos want hrf hs]
      simp only [run_remap]
      have hr : wadd pos want ≤ N := by omega
      have h1 := window_any g N c.max_buf_size pos want hN hr
      have h2 := window_lt g N c.max_buf_size pos want hN hp hmax
      have h3 := window_aligned g N c.max_buf_size pos want
      cases os with
      | none =>
          refine ⟨hmax, rfl, fun _ => rfl, Nat.zero_mod g, ?_, ?_, ?_, fun hc => absurd rfl hc⟩
          · simp [W]
          · simp [W]
          · simp [W]
      | some v =>
          exact ⟨hmax, rfl, fun hc => by simp at hc, h3, hp, h2.1, h2.2, fun _ => h1⟩
    · obtain ⟨v, hv⟩ : ∃ v, c.view = some v := by
        cases hc : c.view with
        | none => exact absurd (Or.inl hc) hs
        | some v => exact ⟨v, rfl⟩
      have hc : c.blockPos ≤ pos ∧ wadd pos want ≤ wadd c.blockPos c.blockSize := by
        by_contra hcon
        exact hs (Or.inr hcon)
      rw [seek_fast g N os c pos want v hrf hv hc.1 hc.2]
      refine ⟨hmax, ?_, hnone, hal, hp, hbp, hbs, hwin⟩
      simp [OsState.run, Cursor.views]

theorem Cursor.seek_cursor (g N : Nat) (os : Option Nat) (r : Cursor) (pos ready want : Nat) :
    (Cursor.seek g N os r pos ready want).cursor = (mm_file.seek g N os r pos want).cursor := by
  simp only [Cursor.seek]
  split <;> simp_all

theorem Cursor.seek_calls (g N : Nat) (os : Option Nat) (r : Cursor) (pos ready want : Nat) :
    (Cursor.seek g N os r pos ready want).calls = (mm_file.seek g N os r pos want).calls := by
  simp only [Cursor.seek]
  split <;> simp_all

theorem Cursor.seek_ptr (g N : Nat) (os : Option Nat) (r : Cursor) (pos ready want : Nat) :
    (Cursor.seek g N os r pos ready want).ptr = (mm_file.seek g N os r pos want).ptr := by
  simp only [Cursor.seek]
  split <;> simp_all

theorem map_consistent (g N : Nat) (hN : N < W) (os : Option Nat) (pos want buf : Nat)
    (hp : pos < W) (c : Cursor) (calls : List OsCall)
    (h : mm_file.map g N os pos want buf = (some c, calls)) :
    Consistent g N c (OsState.run { live := [], faults := 0 } calls) := by
  by_cases hrf : N = 0 ∨ N < wadd pos want
  · rw [map_range_fail g N os pos want buf hrf] at h
    simp at h
  · rw [map_placed g N os pos want buf hrf] at h
    have hmx : min (buf / g * g) N ≤ N := Nat.min_le_right _ _
    have hr : wadd pos want ≤ N := by omega
    have h1 := window_any g N (min (buf / g * g) N) pos want hN hr
    have h2 := window_lt g N (min (buf / g * g) N) pos want hN hp hmx
    have h3 := window_aligned g N (min (buf / g * g) N) pos want
    cases os with
    | none => simp at h
    | some v =>
        simp only [Option.map_some', Prod.mk.injEq, Option.some.injEq] at h
        obtain ⟨hc, hcalls⟩ := h
        subst hc hcalls
        exact ⟨hmx, by simp [OsState.run, OsState.step, Cursor.views],
          fun hc => by simp at hc, h3, hp, h2.1, h2.2, fun _ => h1⟩

theorem reset_consistent (g N : Nat) (hN : N < W) (os : Option Nat) (c : Cursor) (st : OsState)
    (h : Consistent g N c st) :
    Consistent g N (c.resetBufferSize g N os).2.1 (st.run (c.resetBufferSize g N os).2.2) := by
  unfold Cursor.resetBufferSize
  split_ifs with h1
  · exact h
  · obtain ⟨hmax, hst, hnone, hal, hfp, hbp, hbs, hwin⟩ := h
    subst hst
    obtain ⟨v, hv⟩ : ∃ v, c.view = some v := by
      cases hc : c.view with
      | none => have := hnone hc; omega
      | some v => exact ⟨v, rfl⟩
    simp only [Cursor.seek_cursor, Cursor.seek_calls]
    have hrun : OsState.run { live := c.views, faults := 0 }
        (OsCall.munmap c.view c.blockSize ::
          (seek g N os { c with view := none, blockSize := 0, filePos := 0 } c.filePos 0).calls) =
        OsState.run { live := [], faults := 0 }
          (seek g N os { c with view := none, blockSize := 0, filePos := 0 } c.filePos 0).calls := by
      simp [OsState.run, OsState.step, Cursor.views, hv]
    rw [hrun]
    apply seek_consistent g N hN os _ _ c.filePos 0 hfp
    exact ⟨hmax, rfl, fun _ => rfl, hal, by simp [W], hbp, by simp [W], fun hc => absurd rfl hc⟩

theorem steps_consistent (g N : Nat) (hN : N < W) (c0 c : Cursor) (st0 st : OsState)
    (h0 : Consistent g N c0 st0) (h : Steps g N c0 st0 c st) : Consistent g N c st := by
  induction h with
  | refl => exact h0
  | seek c1 st1 os pos ready want _ hp _ ih =>
      rw [Cursor.seek_cursor, Cursor.seek_calls]
      exact seek_consistent g N hN os c1 st1 pos want hp ih
  | resetBufferSize c1 st1 os _ ih => exact reset_consistent g N hN os c1 st1 ih

theorem reachable_consistent (g N : Nat) (hN : N < W) (c : Cursor) (st : OsState)
    (h : Reachable g N c st) : Consistent g N c st := by
  obtain ⟨os, pos, want, buf, c0, calls, hp, _, _, hm, hs⟩ := h
  exact steps_consistent g N hN c0 c _ st (map_consistent g N hN os pos want buf hp c0 calls hm) hs

/-- A request inside the file that is answered with a pointer leaves a window
inside the file that holds the request, whichever path served it. -/
theorem seek_legit (g N : Nat) (hNW : N < W) (os : Option Nat) (c : Cursor) (st : OsState)
    (pos want p : Nat) (hrange : pos + want ≤ N) (h : Consistent g N c st)
    (hp : (seek g N os c pos want).ptr = some p) :
    (∃ v, (seek g N os c pos want).cursor.view = some v ∧
      p = v + (pos - (seek g N os c pos want).cursor.blockPos)) ∧
    (seek g N os c pos want).cursor.filePos = pos ∧
    (seek g N os c pos want).cursor.blockPos ≤ pos ∧
    pos + want ≤ (seek g N os c pos want).cursor.blockPos +
      (seek g N os c pos want).cursor.blockSize ∧
    (seek g N os c pos want).cursor.blockPos + (seek g N os c pos want).cursor.blockSize ≤ N := by
  obtain ⟨hmax, hst, hnone, hal, hfp, hbp, hbs, hwin⟩ := h
  have hwa : wadd pos want = pos + want := by simp only [wadd, W] at *; omega
  by_cases hrf : N = 0 ∨ N < wadd pos want
  · rw [seek_range_fail g N os c pos want hrf] at hp
    simp at hp
  · by_cases hs : c.view = none ∨
        ¬(c.blockPos ≤ pos ∧ wadd pos want ≤ wadd c.blockPos c.blockSize)
    · rw [seek_slow g N os c pos want hrf hs] at hp ⊢
      have hl := window_legit g N c.max_buf_size pos want hNW hmax hrange
      cases os with
      | none => simp at hp
      | some v =>
          simp only [Option.map_some', Option.some.injEq] at hp
          refine ⟨⟨v, rfl, ?_⟩, rfl, hl.1, hl.2.1, hl.2.2⟩
          have := hl.1
          simp only [wsub, W] at *
          omega
    · obtain ⟨v, hv⟩ : ∃ v, c.view = some v := by
        cases hc : c.view with
        | none => exact absurd (Or.inl hc) hs
        | some v => exact ⟨v, rfl⟩
      have hc : c.blockPos ≤ pos ∧ wadd pos want ≤ wadd c.blockPos c.blockSize := by
        by_contra hcon
        exact hs (Or.inr hcon)
      rw [seek_fast g N os c pos want v hrf hv hc.1 hc.2] at hp ⊢
      simp only [Option.some.injEq] at hp
      have hw3 := hwin (by simp [hv])
      obtain ⟨hc1, hc2⟩ := hc
      refine ⟨⟨v, hv, ?_⟩, rfl, hc1, ?_, ?_⟩ <;>
        · simp only [wadd, wsub, W] at *
          omega

theorem seek_run (g N : Nat) (hNW : N < W) (os : Option Nat) (c : Cursor) (st : OsState)
    (pos want : Nat) (hp : pos < W) (h : Consistent g N c st) :
    st.run (seek g N os c pos want).calls =
      { live := (seek g N os c pos want).cursor.views, faults := 0 } :=
  (seek_consistent g N hNW os c st pos want hp h).2.1

theorem byteAt_view (file : List Nat) (v off len a : Nat) (h1 : v ≤ a) (h2 : a < v + len) :
    OsState.byteAt { live := [{ addr := v, offset := off, length := len }], faults := 0 } file a =
      file[off + (a - v)]? := by
  simp [OsState.byteAt, List.find?, h1, h2]

/-- C1: on an open file of size `N > 0` with granularity `g > 0`, for every
cursor obtained from `map` and every request with `pos + want ≤ N`, a pointer
returned by `Cursor::seek` comes with `blockPos ≤ pos`,
`pos + want ≤ blockPos + blockSize`, pointer `view + (pos - blockPos)`, and
`readyLen = blockPos + blockSize - pos ≥ want`; the `readyLen` bytes read
through the pointer are the file bytes `[pos, pos + readyLen)`. -/
theorem seek_pointer_reads_file_bytes (g N : Nat) (hg : 0 < g) (hN : 0 < N) (hNW : N < W)
    (c : Cursor) (st : OsState) (hr : Reachable g N c st) (os : Option Nat)
    (pos ready want : Nat) (hrange : pos + want ≤ N) (file : List Nat) (hfile : file.length = N)
    (p : Nat) (hp : (Cursor.seek g N os c pos ready want).ptr = some p) :
    (Cursor.seek g N os c pos ready want).cursor.blockPos ≤ pos ∧
    pos + want ≤ (Cursor.seek g N os c pos ready want).cursor.blockPos +
      (Cursor.seek g N os c pos ready want).cursor.blockSize ∧
    (∃ v, (Cursor.seek g N os c pos ready want).cursor.view = some v ∧
      p = v + (pos - (Cursor.seek g N os c pos ready want).cursor.blockPos)) ∧
    (Cursor.seek g N os c pos ready want).ready =
      (Cursor.seek g N os c pos ready want).cursor.blockPos +
        (Cursor.seek g N os c pos ready want).cursor.blockSize - pos ∧
    want ≤ (Cursor.seek g N os c pos ready want).ready ∧
    pos + (Cursor.seek g N os c pos ready want).ready ≤ file.length ∧
    ∀ i, i < (Cursor.seek g N os c pos ready want).ready →
      (st.run (Cursor.seek g N os c pos ready want).calls).byteAt file (p + i) =
        file[pos + i]? := by
  have hc := reachable_consistent g N hNW c st hr
  have hpW : pos < W := by omega
  rw [Cursor.seek_ptr] at hp
  have hl := seek_legit g N hNW os c st pos want p hrange hc hp
  have hrun := seek_run g N hNW os c st pos want hpW hc
  have hready : (Cursor.seek g N os c pos ready want).ready =
      wsub (seek g N os c pos want).cursor.blockSize
        (wsub (seek g N os c pos want).cursor.filePos (seek g N os c pos want).cursor.blockPos) := by
    simp only [Cursor.seek, hp]
  rw [Cursor.seek_cursor, Cursor.seek_calls, hready, hrun]
  obtain ⟨⟨v, hv, hpv⟩, hfpos, h1, h2, h3⟩ := hl
  rw [hfpos]
  generalize (seek g N os c pos want).cursor = c2 at *
  have hrd : wsub c2.blockSize (wsub pos c2.blockPos) = c2.blockPos + c2.blockSize - pos := by
    simp only [wsub, W] at *
    omega
  rw [hrd]
  refine ⟨h1, h2, ⟨v, hv, hpv⟩, rfl, by omega, by omega, ?_⟩
  intro i hi
  simp only [Cursor.views, hv]
  rw [byteAt_view file v c2.blockPos c2.blockSize (p + i) (by omega) (by omega)]
  have he : c2.blockPos + (p + i - v) = pos + i := by omega
  rw [he]

theorem seek_ptr_isSome (g N : Nat) (os : Option Nat) (c : Cursor) (pos want : Nat)
    (hrf : ¬(N = 0 ∨ N < wadd pos want)) (hos : os.isSome) :
    (seek g N os c pos want).ptr.isSome := by
  by_cases hs : c.view = none ∨
      ¬(c.blockPos ≤ pos ∧ wadd pos want ≤ wadd c.blockPos c.blockSize)
  · rw [seek_slow g N os c pos want hrf hs]
    cases os with
    | none => simp at hos
    | some v => simp
  · obtain ⟨v, hv⟩ : ∃ v, c.view = some v := by
      cases hc : c.view with
      | none => exact absurd (Or.inl hc) hs
      | some v => exact ⟨v, rfl⟩
    have hc : c.blockPos ≤ pos ∧ wadd pos want ≤ wadd c.blockPos c.blockSize := by
      by_contra hcon
      exact hs (Or.inr hcon)
    rw [seek_fast g N os c pos want v hrf hv hc.1 hc.2]
    simp

theorem seek_pointer_reads_file_bytes_witness :
    (Cursor.seek 4 10 (some 2000) ⟨some 1000, 0, 0, 4, 4⟩ 8 0 2).cursor.blockPos ≤ 8 ∧
    8 + 2 ≤ (Cursor.seek 4 10 (some 2000) ⟨some 1000, 0, 0, 4, 4⟩ 8 0 2).cursor.blockPos +
      (Cursor.seek 4 10 (some 2000) ⟨some 1000, 0, 0, 4, 4⟩ 8 0 2).cursor.blockSize ∧
    (∃ v, (Cursor.seek 4 10 (some 2000) ⟨some 1000, 0, 0, 4, 4⟩ 8 0 2).cursor.view = some v ∧
      2004 = v + (8 - (Cursor.seek 4 10 (some 2000) ⟨some 1000, 0, 0, 4, 4⟩ 8 0 2).cursor.blockPos)) ∧
    (Cursor.seek 4 10 (some 2000) ⟨some 1000, 0, 0, 4, 4⟩ 8 0 2).ready =
      (Cursor.seek 4 10 (some 2000) ⟨some 1000, 0, 0, 4, 4⟩ 8 0 2).cursor.blockPos +
        (Cursor.seek 4 10 (some 2000) ⟨some 1000, 0, 0, 4, 4⟩ 8 0 2).cursor.blockSize - 8 ∧
    2 ≤ (Cursor.seek 4 10 (some 2000) ⟨some 1000, 0, 0, 4, 4⟩ 8 0 2).ready ∧
    8 + (Cursor.seek 4 10 (some 2000) ⟨some 1000, 0, 0, 4, 4⟩ 8 0 2).ready ≤
      [48, 49, 50, 51, 52, 53, 54, 55, 56, 57].length ∧
    ∀ i, i < (Cursor.seek 4 10 (some 2000) ⟨some 1000, 0, 0, 4, 4⟩ 8 0 2).ready →
      ((OsState.run { live := [], faults := 0 } [OsCall.mmap 4 0 (some 1000)]).run
          (Cursor.seek 4 10 (some 2000) ⟨some 1000, 0, 0, 4, 4⟩ 8 0 2).calls).byteAt
        [48, 49, 50, 51, 52, 53, 54, 55, 56, 57] (2004 + i) =
        [48, 49, 50, 51, 52, 53, 54, 55, 56, 57][8 + i]? :=
  seek_pointer_reads_file_bytes 4 10 (by decide) (by decide) (by decide)
    ⟨some 1000, 0, 0, 4, 4⟩ (OsState.run { live := [], faults := 0 } [OsCall.mmap 4 0 (some 1000)])
    ⟨some 1000, 0, 4, 4, ⟨some 1000, 0, 0, 4, 4⟩, [OsCall.mmap 4 0 (some 1000)],
      by decide, by decide, by decide, by decide, Steps.refl⟩
    (some 2000) 8 0 2 (by decide) [48, 49, 50, 51, 52, 53, 54, 55, 56, 57] rfl 2004 (by decide)

/-- C3, evaluated where the code departs from it.  File of 10000 bytes,
granularity 4096, cursor from `map(0, 0, 4096)` with window `[0, 4096)`.  The
request `seek(2^64 - 4096, 9096)` passes the range check because `pos + want`
wraps to 5000; the window misses it, so the view is released and a mapping of
9096 bytes at file offset `2^64 - 4096` is requested.  When the OS grants it,
`seek` returns a pointer and `blockPos + blockSize` exceeds the file size. -/
theorem seek_wrapped_request_maps_past_eof :
    mm_file.map 4096 10000 (some 1000) 0 0 4096 =
      (some ⟨some 1000, 0, 0, 4096, 4096⟩, [OsCall.mmap 4096 0 (some 1000)]) ∧
    wadd 18446744073709547520 9096 = 5000 ∧
    Cursor.seek 4096 10000 (some 2000) ⟨some 1000, 0, 0, 4096, 4096⟩ 18446744073709547520 0 9096 =
      { ptr := some 2000, ready := 9096,
        cursor := ⟨some 2000, 18446744073709547520, 18446744073709547520, 9096, 4096⟩,
        calls := [OsCall.munmap (some 1000) 4096,
          OsCall.mmap 9096 18446744073709547520 (some 2000)] } ∧
    Reachable 4096 10000 ⟨some 2000, 18446744073709547520, 18446744073709547520, 9096, 4096⟩
      { live := [⟨2000, 18446744073709547520, 9096⟩], faults := 0 } ∧
    ¬(18446744073709547520 + 9096 ≤ 10000) := by
  refine ⟨by decide, by decide, by decide, ?_, by decide⟩
  refine ⟨some 1000, 0, 0, 4096, ⟨some 1000, 0, 0, 4096, 4096⟩, [OsCall.mmap 4096 0 (some 1000)],
    by decide, by decide, by decide, by decide, ?_⟩
  exact Steps.seek ⟨some 1000, 0, 0, 4096, 4096⟩ _ (some 2000) 18446744073709547520 0 9096
    Steps.refl (by decide) (by decide)

/-- C4: alignment invariant.  With granularity `g > 0`, the cursor returned by
a successful `map` has `blockPos % g = 0`, and so has every cursor obtained
from `map` after each successful `Cursor::seek`, whichever path served it, the
end-of-file case with its second alignment included. -/
theorem blockPos_aligned (g N : Nat) (hg : 0 < g) (hNW : N < W) :
    (∀ (os : Option Nat) (pos want buf : Nat) (c : Cursor) (calls : List OsCall),
      pos < W → mm_file.map g N os pos want buf = (some c, calls) → c.blockPos % g = 0) ∧
    (∀ (c : Cursor) (st : OsState), Reachable g N c st →
      ∀ (os : Option Nat) (pos ready want : Nat), pos < W →
        (Cursor.seek g N os c pos ready want).ptr ≠ none →
        (Cursor.seek g N os c pos ready want).cursor.blockPos % g = 0) := by
  constructor
  · intro os pos want buf c calls hp hm
    exact (map_consistent g N hNW os pos want buf hp c calls hm).2.2.2.1
  · intro c st hr os pos ready want hp _
    rw [Cursor.seek_cursor]
    exact (seek_consistent g N hNW os c st pos want hp
      (reachable_consistent g N hNW c st hr)).2.2.2.1

theorem blockPos_aligned_witness :
    (Cursor.seek 4 10 (some 2000) ⟨some 1000, 0, 0, 4, 4⟩ 8 0 2).cursor.blockPos = 4 ∧
    (Cursor.seek 4 10 (some 2000) ⟨some 1000, 0, 0, 4, 4⟩ 8 0 2).cursor.blockPos % 4 = 0 :=
  ⟨by decide,
    (blockPos_aligned 4 10 (by decide) (by decide)).2 ⟨some 1000, 0, 0, 4, 4⟩
      (OsState.run { live := [], faults := 0 } [OsCall.mmap 4 0 (some 1000)])
      ⟨some 1000, 0, 4, 4, ⟨some 1000, 0, 0, 4, 4⟩, [OsCall.mmap 4 0 (some 1000)],
        by decide, by decide, by decide, by decide, Steps.refl⟩
      (some 2000) 8 0 2 (by decide) (by decide)⟩

/-- C5: range failure is atomic.  When `fileSize = 0`, or the sum `pos + want`
does not wrap and exceeds `fileSize`, `seek` returns null, issues no OS call
and leaves the cursor as it was (so does `Cursor::seek`, which also leaves
`ready_for_read_len` alone), and `map` returns a null cursor without an OS
call; in particular `seek(N - 1, 2)` fails on a file of size `N`. -/
theorem range_failure_is_atomic (g N : Nat) (hg : 0 < g) (os : Option Nat) (c : Cursor)
    (pos want ready buf : Nat) (h : N = 0 ∨ (pos + want < W ∧ N < pos + want)) :
    seek g N os c pos want = { ptr := none, cursor := c, calls := [] } ∧
    Cursor.seek g N os c pos ready want =
      { ptr := none, ready := ready, cursor := c, calls := [] } ∧
    mm_file.map g N os pos want buf = (none, []) ∧
    (N + 1 < W → seek g N os c (N - 1) 2 = { ptr := none, cursor := c, calls := [] }) := by
  have hrf : N = 0 ∨ N < wadd pos want := by
    rcases h with h | ⟨h1, h2⟩
    · exact Or.inl h
    · right
      simp only [wadd, W] at *
      omega
  have hs := seek_range_fail g N os c pos want hrf
  refine ⟨hs, ?_, map_range_fail g N os pos want buf hrf, ?_⟩
  · simp only [Cursor.seek, hs]
  · intro hN1
    apply seek_range_fail
    by_cases h0 : N = 0
    · exact Or.inl h0
    · right
      simp only [wadd, W] at *
      omega

theorem range_failure_is_atomic_witness :
    seek 4096 10 (some 2000) ⟨some 1000, 0, 0, 10, 10⟩ 9 2 =
      { ptr := none, cursor := ⟨some 1000, 0, 0, 10, 10⟩, calls := [] } ∧
    mm_file.map 4096 10 (some 2000) 9 2 4096 = (none, []) :=
  ⟨(range_failure_is_atomic 4096 10 (by decide) (some 2000) ⟨some 1000, 0, 0, 10, 10⟩ 9 2 0 4096
      (Or.inr ⟨by decide, by decide⟩)).1,
    (range_failure_is_atomic 4096 10 (by decide) (some 2000) ⟨some 1000, 0, 0, 10, 10⟩ 9 2 0 4096
      (Or.inr ⟨by decide, by decide⟩)).2.2.1⟩

theorem window_covers (g N mx pos want : Nat) (hN : N < W) (hp : pos < W) (hw : want < W)
    (hmx : mx ≤ N) (hr : wadd pos want ≤ N) :
    (window g N mx pos want).1 ≤ pos ∧
    wadd pos want ≤ wadd (window g N mx pos want).1 (window g N mx pos want).2 := by
  have hdx := Nat.mod_le pos g
  have hb := Nat.mod_le (wsub N mx) g
  simp only [window, align]
  split_ifs with h1 h2
  · simp only [wsub, wadd, W] at *
    omega
  · simp only [wsub, wadd, W] at *
    omega
  · simp only [wsub, wadd, W] at *
    omega

/-- After a `seek` that returned a pointer, the cursor holds a view whose
window passes the fast-path test for the same request, and the pointer is
`view + (pos - blockPos)` in `size_t` arithmetic. -/
theorem seek_success_covers (g N : Nat) (hNW : N < W) (os : Option Nat) (c : Cursor)
    (pos want p : Nat) (hp : pos < W) (hw : want < W) (hmax : c.max_buf_size ≤ N)
    (h : (seek g N os c pos want).ptr = some p) :
    ¬(N = 0 ∨ N < wadd pos want) ∧
    (seek g N os c pos want).cursor.filePos = pos ∧
    (seek g N os c pos want).cursor.blockPos ≤ pos ∧
    wadd pos want ≤ wadd (seek g N os c pos want).cursor.blockPos
      (seek g N os c pos want).cursor.blockSize ∧
    ∃ v, (seek g N os c pos want).cursor.view = some v ∧
      p = v + wsub pos (seek g N os c pos want).cursor.blockPos := by
  by_cases hrf : N = 0 ∨ N < wadd pos want
  · rw [seek_range_fail g N os c pos want hrf] at h
    simp at h
  · refine ⟨hrf, ?_⟩
    by_cases hs : c.view = none ∨
        ¬(c.blockPos ≤ pos ∧ wadd pos want ≤ wadd c.blockPos c.blockSize)
    · rw [seek_slow g N os c pos want hrf hs] at h ⊢
      have hc := window_covers g N c.max_buf_size pos want hNW hp hw hmax (by omega)
      cases os with
      | none => simp at h
      | some v =>
          simp only [Option.map_some', Option.some.injEq] at h
          exact ⟨rfl, hc.1, hc.2, v, rfl, h.symm⟩
    · obtain ⟨v, hv⟩ : ∃ v, c.view = some v := by
        cases hc : c.view with
        | none => exact absurd (Or.inl hc) hs
        | some v => exact ⟨v, rfl⟩
      have hc : c.blockPos ≤ pos ∧ wadd pos want ≤ wadd c.blockPos c.blockSize := by
        by_contra hcon
        exact hs (Or.inr hcon)
      rw [seek_fast g N os c pos want v hrf hv hc.1 hc.2] at h ⊢
      simp only [Option.some.injEq] at h
      exact ⟨rfl, hc.1, hc.2, v, hv, h.symm⟩

/-- C6: fast-path idempotence.  Right after a `Cursor::seek(pos, want)` that
returned a pointer, on any cursor obtained from `map`, the same call again
returns the same pointer and the same `readyLen`, leaves the cursor (view,
`blockPos`, `blockSize`, `filePos`) as it is and issues no OS call; and right
after a successful `map(pos, want, _)`, `seek(pos, want)` returns the pointer
and the `readyLen` that the cursor left by `map` stands for, leaves the cursor
as it is and issues no OS call. -/
theorem seek_again_is_fast_path (g N : Nat) (hg : 0 < g) (hNW : N < W) (pos want : Nat)
    (hp : pos < W) (hw : want < W) :
    (∀ (c : Cursor) (st : OsState), Reachable g N c st →
      ∀ (os os2 : Option Nat) (ready ready2 p : Nat),
        (Cursor.seek g N os c pos ready want).ptr = some p →
        Cursor.seek g N os2 (Cursor.seek g N os c pos ready want).cursor pos ready2 want =
          { ptr := some p, ready := (Cursor.seek g N os c pos ready want).ready,
            cursor := (Cursor.seek g N os c pos ready want).cursor, calls := [] }) ∧
    (∀ (os os2 : Option Nat) (buf ready2 : Nat) (c : Cursor) (calls : List OsCall),
      mm_file.map g N os pos want buf = (some c, calls) →
        ∃ v, c.view = some v ∧
          Cursor.seek g N os2 c pos ready2 want =
            { ptr := some (v + wsub c.filePos c.blockPos),
              ready := wsub c.blockSize (wsub c.filePos c.blockPos),
              cursor := c, calls := [] }) := by
  constructor
  · intro c st hr os os2 ready ready2 p h
    have hcons := reachable_consistent g N hNW c st hr
    rw [Cursor.seek_ptr] at h
    obtain ⟨hrf, hfp, h1, h2, v, hv, hpv⟩ :=
      seek_success_covers g N hNW os c pos want p hp hw hcons.1 h
    have hready : (Cursor.seek g N os c pos ready want).ready =
        wsub (seek g N os c pos want).cursor.blockSize
          (wsub (seek g N os c pos want).cursor.filePos
            (seek g N os c pos want).cursor.blockPos) := by
      simp only [Cursor.seek, h]
    rw [hready, Cursor.seek_cursor]
    have hf := seek_fast g N os2 (seek g N os c pos want).cursor pos want v hrf hv h1 h2
    have hcur : ∀ c2 : Cursor, c2.filePos = pos → ({ c2 with filePos := pos } : Cursor) = c2 := by
      intro c2 hc2
      cases c2
      simp only at hc2
      simp [hc2]
    rw [hcur _ hfp] at hf
    simp only [Cursor.seek, hf, ← hpv]
  · intro os os2 buf ready2 c calls hm
    by_cases hrf : N = 0 ∨ N < wadd pos want
    · rw [map_range_fail g N os pos want buf hrf] at hm
      simp at hm
    · rw [map_placed g N os pos want buf hrf] at hm
      have hc := window_covers g N (min (buf / g * g) N) pos want hNW hp hw
        (Nat.min_le_right _ _) (by omega)
      cases os with
      | none => simp at hm
      | some v =>
          simp only [Option.map_some', Prod.mk.injEq, Option.some.injEq] at hm
          obtain ⟨hm1, _⟩ := hm
          subst hm1
          refine ⟨v, rfl, ?_⟩
          have hf := seek_fast g N os2
            { view := some v, filePos := pos,
              blockPos := (window g N (min (buf / g * g) N) pos want).1,
              blockSize := (window g N (min (buf / g * g) N) pos want).2,
              max_buf_size := min (buf / g * g) N } pos want v hrf rfl hc.1 hc.2
          simp only [Cursor.seek, hf]

theorem seek_again_is_fast_path_witness :
    Cursor.seek 4 10 none (Cursor.seek 4 10 (some 2000) ⟨some 1000, 0, 0, 4, 4⟩ 8 0 2).cursor 8 0 2 =
      { ptr := some 2004, ready := (Cursor.seek 4 10 (some 2000) ⟨some 1000, 0, 0, 4, 4⟩ 8 0 2).ready,
        cursor := (Cursor.seek 4 10 (some 2000) ⟨some 1000, 0, 0, 4, 4⟩ 8 0 2).cursor,
        calls := [] } :=
  (seek_again_is_fast_path 4 10 (by decide) (by decide) 8 2 (by decide) (by decide)).1
    ⟨some 1000, 0, 0, 4, 4⟩ (OsState.run { live := [], faults := 0 } [OsCall.mmap 4 0 (some 1000)])
    ⟨some 1000, 0, 4, 4, ⟨some 1000, 0, 0, 4, 4⟩, [OsCall.mmap 4 0 (some 1000)],
      by decide, by decide, by decide, by decide, Steps.refl⟩
    (some 2000) none 0 0 2004 (by decide)

/-- C7: no mapping leaks.  For every cursor obtained from `map` and taken
through any sequence of `seek` and `resetBufferSize` calls, each OS mapping
request granted or refused as the OS likes: the live views are exactly the
cursor's current view, mapped at `(blockPos, blockSize)` (none when `view` is
null, never more than one); no `munmap` was issued for a null address or with
a length other than the one the view was mapped with; and the destructor
leaves no live view. -/
theorem no_mapping_leaks (g N : Nat) (hg : 0 < g) (hNW : N < W) (c : Cursor) (st : OsState)
    (hr : Reachable g N c st) :
    st.live = c.views ∧ (c.view = none → st.live = []) ∧ st.live.length ≤ 1 ∧
    st.faults = 0 ∧
    st.run c.destroy = { live := [], faults := 0 } := by
  obtain ⟨_, hst, _⟩ := reachable_consistent g N hNW c st hr
  subst hst
  refine ⟨rfl, ?_, ?_, rfl, run_destroy c⟩
  · intro hv
    simp [Cursor.views, hv]
  · cases hv : c.view <;> simp [Cursor.views, hv]

theorem no_mapping_leaks_witness :
    (OsState.run (OsState.run { live := [], faults := 0 } [OsCall.mmap 4 0 (some 1000)])
      (Cursor.seek 4 10 none ⟨some 1000, 0, 0, 4, 4⟩ 8 0 2).calls).live = [] ∧
    (OsState.run (OsState.run { live := [], faults := 0 } [OsCall.mmap 4 0 (some 1000)])
      (Cursor.seek 4 10 none ⟨some 1000, 0, 0, 4, 4⟩ 8 0 2).calls).faults = 0 :=
  have h := no_mapping_leaks 4 10 (by decide) (by decide)
    (Cursor.seek 4 10 none ⟨some 1000, 0, 0, 4, 4⟩ 8 0 2).cursor
    (OsState.run (OsState.run { live := [], faults := 0 } [OsCall.mmap 4 0 (some 1000)])
      (Cursor.seek 4 10 none ⟨some 1000, 0, 0, 4, 4⟩ 8 0 2).calls)
    ⟨some 1000, 0, 4, 4, ⟨some 1000, 0, 0, 4, 4⟩, [OsCall.mmap 4 0 (some 1000)],
      by decide, by decide, by decide, by decide,
      Steps.seek ⟨some 1000, 0, 0, 4, 4⟩ _ none 8 0 2 Steps.refl (by decide) (by decide)⟩
  ⟨h.2.1 (by decide), h.2.2.2.1⟩

/-- C8: map failure resets the cursor.  Whenever the mapping request that the
slow path of `seek` issues is refused, `seek` returns null, the cursor is left
with a null view and `filePos = blockPos = blockSize = 0`, and the old view,
if there was one, was released before the request; when the request is refused
inside `map`, `map` returns a null cursor. -/
theorem map_failure_resets_cursor (g N : Nat) (hg : 0 < g) (os : Option Nat) (c : Cursor)
    (pos want buf : Nat) :
    (∀ len off, OsCall.mmap len off none ∈ (seek g N os c pos want).calls →
      (seek g N os c pos want).ptr = none ∧
      (seek g N os c pos want).cursor =
        { view := none, filePos := 0, blockPos := 0, blockSize := 0,
          max_buf_size := c.max_buf_size } ∧
      (seek g N os c pos want).calls = c.destroy ++ [OsCall.mmap len off none]) ∧
    (∀ len off, OsCall.mmap len off none ∈ (mm_file.map g N os pos want buf).2 →
      (mm_file.map g N os pos want buf).1 = none) := by
  constructor
  · intro len off hmem
    by_cases hrf : N = 0 ∨ N < wadd pos want
    · rw [seek_range_fail g N os c pos want hrf] at hmem
      simp at hmem
    · by_cases hs : c.view = none ∨
          ¬(c.blockPos ≤ pos ∧ wadd pos want ≤ wadd c.blockPos c.blockSize)
      · rw [seek_slow g N os c pos want hrf hs] at hmem ⊢
        simp only [List.mem_append, List.mem_singleton] at hmem
        rcases hmem with hmem | hmem
        · cases hv : c.view <;> simp [Cursor.destroy, hv] at hmem
        · injection hmem with h1 h2 h3
          subst h3
          simp [h1, h2]
      · obtain ⟨v, hv⟩ : ∃ v, c.view = some v := by
          cases hc : c.view with
          | none => exact absurd (Or.inl hc) hs
          | some v => exact ⟨v, rfl⟩
        have hc : c.blockPos ≤ pos ∧ wadd pos want ≤ wadd c.blockPos c.blockSize := by
          by_contra hcon
          exact hs (Or.inr hcon)
        rw [seek_fast g N os c pos want v hrf hv hc.1 hc.2] at hmem
        simp at hmem
  · intro len off hmem
    by_cases hrf : N = 0 ∨ N < wadd pos want
    · rw [map_range_fail g N os pos want buf hrf]
    · rw [map_placed g N os pos want buf hrf] at hmem ⊢
      simp only [List.mem_singleton] at hmem
      injection hmem with h1 h2 h3
      subst h3
      simp

theorem map_failure_resets_cursor_witness :
    (seek 4 10 none ⟨some 1000, 0, 0, 4, 4⟩ 8 2).ptr = none ∧
    (seek 4 10 none ⟨some 1000, 0, 0, 4, 4⟩ 8 2).cursor =
      { view := none, filePos := 0, blockPos := 0, blockSize := 0, max_buf_size := 4 } ∧
    (seek 4 10 none ⟨some 1000, 0, 0, 4, 4⟩ 8 2).calls =
      (⟨some 1000, 0, 0, 4, 4⟩ : Cursor).destroy ++ [OsCall.mmap 6 4 none] :=
  (map_failure_resets_cursor 4 10 (by decide) none ⟨some 1000, 0, 0, 4, 4⟩ 8 2 4).1 6 4
    (by decide)

/-- C9: `map` is the shared windowing algorithm.  For every file size,
granularity `g > 0` and every `(pos, want, buf)`, `map(pos, want, buf)` returns
a null cursor exactly when `mm_file::seek(pos, want)` returns null on a fresh
unmapped cursor whose ceiling is `min((buf / g) * g, fileSize)`; both issue
the same OS calls (the same mapping request, same length and offset), and the
cursor `map` returns is the cursor `seek` leaves (same view, `filePos`,
`blockPos`, `blockSize` and ceiling). -/
theorem map_is_seek_on_fresh_cursor (g N : Nat) (hg : 0 < g) (os : Option Nat)
    (pos want buf : Nat) :
    ((mm_file.map g N os pos want buf).1 = none ↔
      (seek g N os (Cursor.new (min (buf / g * g) N)) pos want).ptr = none) ∧
    (mm_file.map g N os pos want buf).2 =
      (seek g N os (Cursor.new (min (buf / g * g) N)) pos want).calls ∧
    (∀ c, (mm_file.map g N os pos want buf).1 = some c →
      c = (seek g N os (Cursor.new (min (buf / g * g) N)) pos want).cursor) := by
  by_cases hrf : N = 0 ∨ N < wadd pos want
  · rw [map_range_fail g N os pos want buf hrf, seek_range_fail g N os _ pos want hrf]
    simp
  · rw [map_placed g N os pos want buf hrf,
      seek_slow g N os (Cursor.new (min (buf / g * g) N)) pos want hrf (Or.inl rfl)]
    cases os <;> simp [Cursor.new, Cursor.destroy]

theorem map_is_seek_on_fresh_cursor_witness :
    ((mm_file.map 4 10 (some 1000) 8 2 7).1 = none ↔
      (seek 4 10 (some 1000) (Cursor.new (min (7 / 4 * 4) 10)) 8 2).ptr = none) ∧
    (mm_file.map 4 10 (some 1000) 8 2 7).2 =
      (seek 4 10 (some 1000) (Cursor.new (min (7 / 4 * 4) 10)) 8 2).calls ∧
    (∀ c, (mm_file.map 4 10 (some 1000) 8 2 7).1 = some c →
      c = (seek 4 10 (some 1000) (Cursor.new (min (7 / 4 * 4) 10)) 8 2).cursor) :=
  map_is_seek_on_fresh_cursor 4 10 (by decide) (some 1000) 8 2 7

/-- C10 fails as stated: with file size 5000, granularity 4096 and
`maxWindow = 6000 > 5000`, the ceiling is rounded down to 4096 before it is
compared with the file size, and the successful `map(0, 0, 6000)` yields the
window `[0, 4096)`, not the whole file; the later `seek(4096, 1)`, inside the
file, releases that view and requests a new mapping. -/
theorem map_larger_maxWindow_not_whole_file :
    5000 < 6000 ∧
    mm_file.map 4096 5000 (some 1000) 0 0 6000 =
      (some ⟨some 1000, 0, 0, 4096, 4096⟩, [OsCall.mmap 4096 0 (some 1000)]) ∧
    (⟨some 1000, 0, 0, 4096, 4096⟩ : Cursor).blockSize ≠ 5000 ∧
    4096 + 1 ≤ 5000 ∧
    (Cursor.seek 4096 5000 (some 2000) ⟨some 1000, 0, 0, 4096, 4096⟩ 4096 0 1).calls =
      [OsCall.munmap (some 1000) 4096, OsCall.mmap 5000 0 (some 2000)] := by
  decide

theorem window_whole_file (g N pos want : Nat) (hNW : N < W) (hr : pos + want ≤ N) :
    window g N N pos want = (0, N) := by
  have hdx := Nat.mod_le pos g
  have hws : wsub N N = 0 := by simp only [wsub, W] at *; omega
  simp only [window, align, hws, Nat.zero_mod, Nat.sub_zero]
  split_ifs with h1 h2
  · simp only [wsub, W] at *
    simp only [Prod.mk.injEq, true_and]
    omega
  · simp only [wsub, wadd, W] at *
    simp only [Prod.mk.injEq, and_true]
    omega
  · simp only [wsub, wadd, W] at *
    simp only [Prod.mk.injEq]
    omega

/-- Cursor whose window is the whole file and whose ceiling is the file size. -/
theorem whole_file_seek (g N : Nat) (hNW : N < W) (os : Option Nat) (c : Cursor) (v : Nat)
    (pos want : Nat) (hv : c.view = some v) (hb : c.blockPos = 0) (hs : c.blockSize = N) :
    (seek g N os c pos want).cursor.view = some v ∧
    (seek g N os c pos want).cursor.blockPos = 0 ∧
    (seek g N os c pos want).cursor.blockSize = N ∧
    (seek g N os c pos want).cursor.max_buf_size = c.max_buf_size ∧
    (seek g N os c pos want).calls = [] ∧
    (¬(N = 0 ∨ N < wadd pos want) → (seek g N os c pos want).ptr = some (v + wsub pos 0)) := by
  by_cases hrf : N = 0 ∨ N < wadd pos want
  · rw [seek_range_fail g N os c pos want hrf]
    exact ⟨hv, hb, hs, rfl, rfl, fun h => absurd hrf h⟩
  · have h2 : wadd pos want ≤ wadd c.blockPos c.blockSize := by
      rw [hb, hs]
      simp only [wadd, W] at *
      omega
    rw [seek_fast g N os c pos want v hrf hv (by omega) h2]
    exact ⟨hv, hb, hs, rfl, rfl, fun _ => by rw [hb]⟩

theorem whole_file_steps (g N : Nat) (hNW : N < W) (c0 c : Cursor) (st0 st : OsState) (v : Nat)
    (hv : c0.view = some v) (hb : c0.blockPos = 0) (hs : c0.blockSize = N)
    (hm : c0.max_buf_size = N) (h : Steps g N c0 st0 c st) :
    c.view = some v ∧ c.blockPos = 0 ∧ c.blockSize = N ∧ c.max_buf_size = N ∧ st = st0 := by
  induction h with
  | refl => exact ⟨hv, hb, hs, hm, rfl⟩
  | seek c1 st1 os pos ready want _ _ _ ih =>
      obtain ⟨i1, i2, i3, i4, i5⟩ := ih
      have hw := whole_file_seek g N hNW os c1 v pos want i1 i2 i3
      rw [Cursor.seek_cursor, Cursor.seek_calls]
      refine ⟨hw.1, hw.2.1, hw.2.2.1, by rw [hw.2.2.2.1, i4], ?_⟩
      rw [hw.2.2.2.2.1, i5]
      rfl
  | resetBufferSize c1 st1 os _ ih =>
      obtain ⟨i1, i2, i3, i4, i5⟩ := ih
      have hle : c1.blockSize ≤ c1.max_buf_size := by omega
      simp only [Cursor.resetBufferSize, if_pos hle]
      exact ⟨i1, i2, i3, i4, by rw [i5]; rfl⟩

/-- C10, amended: whole-file window.  For every file of size `N > 0`,
granularity `g > 0` and every successful `map(pos, want, maxWindow)` with
`pos + want ≤ N` whose `maxWindow`, rounded down to a multiple of `g`, is at
least `N`: the cursor's window is the whole file (`blockPos = 0`,
`blockSize = N`), and after any further `seek` and `resetBufferSize` calls it
still is, no OS call having been issued; every `seek(pos2, want2)` with
`pos2 + want2 ≤ N` then returns the pointer `view + pos2` with
`readyLen = N - pos2` from the same view, without an OS call. -/
theorem map_whole_file_window (g N : Nat) (hg : 0 < g) (hN : 0 < N) (hNW : N < W)
    (os : Option Nat) (pos want maxWindow : Nat) (c0 : Cursor) (calls : List OsCall)
    (hround : N ≤ maxWindow / g * g) (hrange : pos + want ≤ N)
    (hm : mm_file.map g N os pos want maxWindow = (some c0, calls)) :
    c0.blockPos = 0 ∧ c0.blockSize = N ∧
    ∃ v, c0.view = some v ∧
      ∀ (c : Cursor) (st0 st : OsState), Steps g N c0 st0 c st →
        c.view = some v ∧ c.blockPos = 0 ∧ c.blockSize = N ∧ st = st0 ∧
        ∀ (os2 : Option Nat) (pos2 ready2 want2 : Nat), pos2 + want2 ≤ N →
          Cursor.seek g N os2 c pos2 ready2 want2 =
            { ptr := some (v + pos2), ready := N - pos2,
              cursor := { c with filePos := pos2 }, calls := [] } := by
  have hwa : wadd pos want = pos + want := by simp only [wadd, W] at *; omega
  have hrf : ¬(N = 0 ∨ N < wadd pos want) := by omega
  have hmin : min (maxWindow / g * g) N = N := Nat.min_eq_right hround
  rw [map_placed g N os pos want maxWindow hrf, hmin,
    window_whole_file g N pos want hNW hrange] at hm
  cases os with
  | none => simp at hm
  | some v =>
      simp only [Option.map_some', Prod.mk.injEq, Option.some.injEq] at hm
      obtain ⟨hc0, _⟩ := hm
      subst hc0
      refine ⟨rfl, rfl, v, rfl, ?_⟩
      intro c st0 st hsteps
      obtain ⟨i1, i2, i3, i4, i5⟩ :=
        whole_file_steps g N hNW _ c st0 st v rfl rfl rfl rfl hsteps
      refine ⟨i1, i2, i3, i5, ?_⟩
      intro os2 pos2 ready2 want2 hr2
      have hwa2 : wadd pos2 want2 = pos2 + want2 := by simp only [wadd, W] at *; omega
      have hrf2 : ¬(N = 0 ∨ N < wadd pos2 want2) := by omega
      have h2 : wadd pos2 want2 ≤ wadd c.blockPos c.blockSize := by
        rw [i2, i3]
        simp only [wadd, W] at *
        omega
      have hf := seek_fast g N os2 c pos2 want2 v hrf2 i1 (by omega) h2
      have e1 : wsub pos2 c.blockPos = pos2 := by
        rw [i2]; simp only [wsub, W] at *; omega
      have e2 : wsub c.blockSize pos2 = N - pos2 := by
        rw [i3]; simp only [wsub, W] at *; omega
      simp only [Cursor.seek, hf, e1, e2]

theorem map_whole_file_window_witness :
    (⟨some 1000, 100, 0, 5000, 5000⟩ : Cursor).blockPos = 0 ∧
    (⟨some 1000, 100, 0, 5000, 5000⟩ : Cursor).blockSize = 5000 :=
  have h := map_whole_file_window 4096 5000 (by decide) (by decide) (by decide) (some 1000)
    100 50 8192 ⟨some 1000, 100, 0, 5000, 5000⟩ [OsCall.mmap 5000 0 (some 1000)]
    (by decide) (by decide) (by decide)
  ⟨h.1, h.2.1⟩

/-- Size of the window placed for a request that passed the range check. -/
theorem window_size (g N mx pos want : Nat) (hg : 0 < g) (hN : N < W) (hmx : mx ≤ N) :
    mx ≤ (window g N mx pos want).2 ∧
    (mx < (window g N mx pos want).2 →
      mx < want + pos % g ∨
      ((window g N mx pos want).1 = (align g (N - mx)).1 ∧
        (window g N mx pos want).1 + (window g N mx pos want).2 = N ∧
        (window g N mx pos want).2 < mx + g ∧
        wadd want (pos % g) < mx ∧ wsub N (pos - pos % g) < mx)) ∧
    (wadd want (pos % g) < mx → ¬wsub N (pos - pos % g) < mx →
      (window g N mx pos want).2 = mx ∧ (window g N mx pos want).1 = pos - pos % g) ∧
    (wadd want (pos % g) < mx → wsub N (pos - pos % g) < mx →
      (window g N mx pos want).1 = (align g (N - mx)).1 ∧
      (window g N mx pos want).1 + (window g N mx pos want).2 = N ∧
      (window g N mx pos want).2 < mx + g) ∧
    (¬wadd want (pos % g) < mx →
      (window g N mx pos want).2 = wadd want (pos % g) ∧
      (window g N mx pos want).1 = pos - pos % g) := by
  have hdx := Nat.mod_le pos g
  have hws : wsub N mx = N - mx := by simp only [wsub, W] at *; omega
  have hb := Nat.mod_le (N - mx) g
  have hb2 := Nat.mod_lt (N - mx) hg
  simp only [window, align, hws]
  split_ifs with h1 h2
  · simp only [wsub, wadd, W] at *
    refine ⟨by omega, fun _ => Or.inr ⟨trivial, by omega, by omega, by omega, by omega⟩,
      fun _ h => absurd h2 h, fun _ _ => ⟨trivial, by omega, by omega⟩, fun h => absurd h1 h⟩
  · simp only [wsub, wadd, W] at *
    refine ⟨by omega, fun h => by omega, fun _ _ => ⟨trivial, trivial⟩, fun _ h => absurd h h2,
      fun h => absurd h1 h⟩
  · simp only [wsub, wadd, W] at *
    refine ⟨by omega, fun h => Or.inl (by omega), fun h => absurd h h1, fun h => absurd h h1,
      fun _ => ⟨trivial, trivial⟩⟩

/-- What `resetBufferSize` does when the block is larger than the ceiling. -/
theorem reset_shrink_eq (g N : Nat) (os : Option Nat) (c : Cursor)
    (hbig : ¬c.blockSize ≤ c.max_buf_size) :
    c.resetBufferSize g N os =
      ((seek g N os { c with view := none, blockSize := 0, filePos := 0 } c.filePos 0).ptr.isSome,
        (seek g N os { c with view := none, blockSize := 0, filePos := 0 } c.filePos 0).cursor,
        OsCall.munmap c.view c.blockSize ::
          (seek g N os { c with view := none, blockSize := 0, filePos := 0 } c.filePos 0).calls) := by
  simp only [Cursor.resetBufferSize, if_neg hbig, Cursor.seek_ptr, Cursor.seek_cursor,
    Cursor.seek_calls]

/-- C11 fails as stated: file of 10 bytes, granularity 4, cursor from
`map(0, 0, 4)`.  After `seek(8, 2)` the window is `[4, 10)`, so `blockSize = 6`
exceeds `maxWindow = 4`; `resetBufferSize()` unmaps, maps `[4, 10)` again and
returns true with `blockSize = 6`, neither equal to `maxWindow` nor below it. -/
theorem resetBufferSize_keeps_eof_window :
    Reachable 4 10 ⟨some 2000, 8, 4, 6, 4⟩ { live := [⟨2000, 4, 6⟩], faults := 0 } ∧
    (⟨some 2000, 8, 4, 6, 4⟩ : Cursor).max_buf_size < (⟨some 2000, 8, 4, 6, 4⟩ : Cursor).blockSize ∧
    Cursor.resetBufferSize 4 10 (some 3000) ⟨some 2000, 8, 4, 6, 4⟩ =
      (true, ⟨some 3000, 8, 4, 6, 4⟩,
        [OsCall.munmap (some 2000) 6, OsCall.mmap 6 4 (some 3000)]) ∧
    (⟨some 3000, 8, 4, 6, 4⟩ : Cursor).blockSize ≠ (⟨some 3000, 8, 4, 6, 4⟩ : Cursor).max_buf_size ∧
    (⟨some 3000, 8, 4, 6, 4⟩ : Cursor).max_buf_size < (⟨some 3000, 8, 4, 6, 4⟩ : Cursor).blockSize := by
  refine ⟨?_, by decide, by decide, by decide, by decide⟩
  refine ⟨some 1000, 0, 0, 4, ⟨some 1000, 0, 0, 4, 4⟩, [OsCall.mmap 4 0 (some 1000)],
    by decide, by decide, by decide, by decide, ?_⟩
  exact Steps.seek ⟨some 1000, 0, 0, 4, 4⟩ _ (some 2000) 8 0 2 Steps.refl (by decide) (by decide)

/-- C11, amended: for every cursor created by `map` (file not reopened) whose
`blockSize` exceeds `maxWindow`, if `resetBufferSize()` returns true then
afterwards `maxWindow ≤ blockSize < maxWindow + g` and `filePos` and the
ceiling are as before; `blockSize = maxWindow` when `filePos % g < maxWindow`
and the `maxWindow`-sized window at the aligned `filePos` fits in the file,
whereas near end-of-file the window is `[alignDown(N - maxWindow), N)`. -/
theorem resetBufferSize_window_size (g N : Nat) (hg : 0 < g) (hNW : N < W) (c : Cursor)
    (st : OsState) (hr : Reachable g N c st) (os : Option Nat)
    (hbig : c.max_buf_size < c.blockSize) (hret : (c.resetBufferSize g N os).1 = true) :
    (c.resetBufferSize g N os).2.1.max_buf_size = c.max_buf_size ∧
    (c.resetBufferSize g N os).2.1.filePos = c.filePos ∧
    c.max_buf_size ≤ (c.resetBufferSize g N os).2.1.blockSize ∧
    (c.resetBufferSize g N os).2.1.blockSize < c.max_buf_size + g ∧
    (c.filePos % g < c.max_buf_size → c.filePos - c.filePos % g + c.max_buf_size ≤ N →
      (c.resetBufferSize g N os).2.1.blockSize = c.max_buf_size) ∧
    (c.filePos % g < c.max_buf_size → N < c.filePos - c.filePos % g + c.max_buf_size →
      (c.resetBufferSize g N os).2.1.blockPos = (align g (N - c.max_buf_size)).1 ∧
      (c.resetBufferSize g N os).2.1.blockPos + (c.resetBufferSize g N os).2.1.blockSize = N) := by
  obtain ⟨hmax, _, _, _, hfp, _, _, _⟩ := reachable_consistent g N hNW c st hr
  rw [reset_shrink_eq g N os c (by omega)] at hret ⊢
  simp only at hret ⊢
  by_cases hrf : N = 0 ∨ N < wadd c.filePos 0
  · rw [seek_range_fail g N os _ c.filePos 0 hrf] at hret
    simp at hret
  · rw [seek_slow g N os _ c.filePos 0 hrf (Or.inl rfl)] at hret ⊢
    cases os with
    | none => simp at hret
    | some v =>
        simp only
        obtain ⟨w1, w2, w3, w4, w5⟩ := window_size g N c.max_buf_size c.filePos 0 hg hNW hmax
        have hdx := Nat.mod_lt c.filePos hg
        have hdl := Nat.mod_le c.filePos g
        have hwa : wadd 0 (c.filePos % g) = c.filePos % g := by
          simp only [wadd, W] at *; omega
        have hpos : c.filePos ≤ N := by
          simp only [wadd, W] at *; omega
        have hws : wsub N (c.filePos - c.filePos % g) = N - (c.filePos - c.filePos % g) := by
          simp only [wsub, W] at *; omega
        rw [hwa] at w3 w4 w5
        rw [hws] at w3 w4
        refine ⟨trivial, trivial, w1, ?_, ?_, ?_⟩
        · by_cases hd : c.filePos % g < c.max_buf_size
          · by_cases he : N - (c.filePos - c.filePos % g) < c.max_buf_size
            · exact (w4 hd he).2.2
            · rw [(w3 hd he).1]; omega
          · rw [(w5 hd).1]; omega
        · intro hd hfit
          exact (w3 hd (by omega)).1
        · intro hd hover
          have := w4 hd (by omega)
          exact ⟨this.1, this.2.1⟩

theorem resetBufferSize_window_size_witness :
    (Cursor.resetBufferSize 4 10 (some 3000) ⟨some 2000, 8, 4, 6, 4⟩).2.1.blockSize < 4 + 4 ∧
    4 ≤ (Cursor.resetBufferSize 4 10 (some 3000) ⟨some 2000, 8, 4, 6, 4⟩).2.1.blockSize :=
  have h := resetBufferSize_window_size 4 10 (by decide) (by decide) ⟨some 2000, 8, 4, 6, 4⟩
    { live := [⟨2000, 4, 6⟩], faults := 0 }
    ⟨some 1000, 0, 0, 4, ⟨some 1000, 0, 0, 4, 4⟩, [OsCall.mmap 4 0 (some 1000)],
      by decide, by decide, by decide, by decide,
      Steps.seek ⟨some 1000, 0, 0, 4, 4⟩ _ (some 2000) 8 0 2 Steps.refl (by decide) (by decide)⟩
    (some 3000) (by decide) (by decide)
  ⟨h.2.2.2.1, h.2.2.1⟩

/-- The POSIX branch keeps `isOpen()` and `size() > 0` together, and refuses a
file whose `st_size` is zero. -/
theorem posix_open_rejects_empty (s : posix.State) (path : Option String) (os : posix.Os)
    (hs : (s.file = -1 → s.fileSize = 0) ∧ (s.file ≠ -1 → 0 < s.fileSize)) :
    ((posix.open s path os).2.file = -1 → (posix.open s path os).2.fileSize = 0) ∧
    ((posix.open s path os).2.file ≠ -1 → 0 < (posix.open s path os).2.fileSize) ∧
    (os.fstat = some 0 →
      (posix.open s path os).1 = false ∧ posix.isOpen (posix.open s path os).2 = false ∧
      posix.size (posix.open s path os).2 = 0) := by
  obtain ⟨h1, h2⟩ := hs
  have hc : (posix.close s).file = -1 ∧ (posix.close s).fileSize = 0 := by
    simp only [posix.close]
    split_ifs with h
    · exact ⟨rfl, rfl⟩
    · have h' : s.file = -1 := by simpa using h
      exact ⟨h', h1 h'⟩
  obtain ⟨hc1, hc2⟩ := hc
  cases path with
  | none => simp [posix.open, posix.isOpen, posix.size, hc1, hc2]
  | some p =>
      cases hfd : os.fd with
      | none => simp [posix.open, posix.isOpen, posix.size, hfd, hc2]
      | some fd =>
          have hnn : ¬((fd : Int) < 0) := by omega
          cases hst : os.fstat with
          | none => simp [posix.open, posix.isOpen, posix.size, hfd, hc2, hnn, hst]
          | some sz =>
              by_cases hz : sz = 0
              · simp [posix.open, posix.isOpen, posix.size, hfd, hc2, hnn, hz, hst]
              · simp [posix.open, posix.isOpen, posix.size, hfd, hnn, hz, hst]
                omega

/-- C12, evaluated where the code departs from it: the `_MSC_VER` branch, an
object constructed without a path, then `open` of an existing file of length
zero.  `CreateFileA` succeeds and `GetFileSizeEx` reports 0, so `_mem` keeps
the `INVALID_HANDLE_VALUE` the constructor gave it, the test `!_mem` does not
fire, and `open` returns true with `isOpen()` true and `size() == 0`.  The
POSIX branch refuses the same file. -/
theorem msvc_open_accepts_empty_file :
    msvc.new none ⟨none, none, none⟩ =
      { file := Handle.invalid, mem := Handle.invalid, fileSize := 0 } ∧
    msvc.open (msvc.new none ⟨none, none, none⟩) (some "empty.bin") ⟨some 7, some 0, some 9⟩ =
      (true, { file := Handle.valid 7, mem := Handle.invalid, fileSize := 0 }) ∧
    msvc.isOpen { file := Handle.valid 7, mem := Handle.invalid, fileSize := 0 } = true ∧
    msvc.size { file := Handle.valid 7, mem := Handle.invalid, fileSize := 0 } = 0 ∧
    posix.open (posix.new none ⟨none, none⟩) (some "empty.bin") ⟨some 7, some 0⟩ =
      (false, { file := -1, fileSize := 0 }) := by
  decide

/-- C14, evaluated where the code departs from it.  File of 10000 bytes,
granularity 4096, cursor from `map(0, 0, 4096)`.  For `seek(2^64 - 1, 2)` the
exact sum `2^64 + 1` exceeds the file size, but the `size_t` sum is 1: the
range check passes and the fast path returns the pointer `view + (2^64 - 1)`.
Likewise `map(2^64 - 4096, 4097, 4096)` passes the range check and requests a
mapping of 4097 bytes at offset `2^64 - 4096`, returning a cursor when the OS
grants it. -/
theorem range_check_wraps :
    10000 < 18446744073709551615 + 2 ∧ wadd 18446744073709551615 2 = 1 ∧
    Cursor.seek 4096 10000 none ⟨some 1000, 0, 0, 4096, 4096⟩ 18446744073709551615 0 2 =
      { ptr := some (1000 + 18446744073709551615), ready := 4097,
        cursor := ⟨some 1000, 18446744073709551615, 0, 4096, 4096⟩, calls := [] } ∧
    mm_file.map 4096 10000 (some 1000) 0 0 4096 =
      (some ⟨some 1000, 0, 0, 4096, 4096⟩, [OsCall.mmap 4096 0 (some 1000)]) ∧
    10000 < 18446744073709547520 + 4097 ∧
    mm_file.map 4096 10000 (some 1000) 18446744073709547520 4097 4096 =
      (some ⟨some 1000, 18446744073709547520, 18446744073709547520, 4097, 4096⟩,
        [OsCall.mmap 4097 18446744073709547520 (some 1000)]) := by
  decide

/-- C18: `resetBufferSize` frame.  When `blockSize ≤ maxWindow` the call
returns true, issues no OS call and leaves the cursor (view, `filePos`,
`blockPos`, `blockSize`) as it was; and whenever the call returns true,
`filePos` is what it was before the call. -/
theorem resetBufferSize_frame (g N : Nat) (hg : 0 < g) (os : Option Nat) (c : Cursor) :
    (c.blockSize ≤ c.max_buf_size → c.resetBufferSize g N os = (true, c, [])) ∧
    ((c.resetBufferSize g N os).1 = true → (c.resetBufferSize g N os).2.1.filePos = c.filePos) := by
  constructor
  · intro h
    simp only [Cursor.resetBufferSize, if_pos h]
  · intro hret
    by_cases hle : c.blockSize ≤ c.max_buf_size
    · simp only [Cursor.resetBufferSize, if_pos hle]
    · rw [reset_shrink_eq g N os c hle] at hret ⊢
      simp only at hret ⊢
      by_cases hrf : N = 0 ∨ N < wadd c.filePos 0
      · rw [seek_range_fail g N os _ c.filePos 0 hrf] at hret
        simp at hret
      · rw [seek_slow g N os _ c.filePos 0 hrf (Or.inl rfl)] at hret ⊢
        cases os with
        | none => simp at hret
        | some v => rfl

theorem resetBufferSize_frame_witness :
    Cursor.resetBufferSize 4 10 none ⟨some 1000, 2, 0, 4, 4⟩ =
      (true, ⟨some 1000, 2, 0, 4, 4⟩, []) :=
  (resetBufferSize_frame 4 10 (by decide) none ⟨some 1000, 2, 0, 4, 4⟩).1 (by decide)

/-- C20, evaluated where the code departs from it.  File of 10 bytes,
granularity 4, cursor from `map(10, 0, 4)`, positioned at end of file
(`filePos = 10`).  `read` with `len = 1` clamps `len` to the 0 bytes that
remain, skips the call of `seek` and returns 0, not `END_OF_FILE`; it does so
for every cursor with `filePos = fileSize` and every `len`. -/
theorem read_at_eof_returns_zero :
    mm_file.map 4 10 (some 1000) 10 0 4 =
      (some ⟨some 1000, 10, 4, 6, 4⟩, [OsCall.mmap 6 4 (some 1000)]) ∧
    (⟨some 1000, 10, 4, 6, 4⟩ : Cursor).filePos = 10 ∧
    mm_file.read 4 10 (some 2000) ⟨some 1000, 10, 4, 6, 4⟩ none 1 =
      { ret := 0, pStr := none, cursor := ⟨some 1000, 10, 4, 6, 4⟩, calls := [] } ∧
    (0 : Int) ≠ END_OF_FILE ∧
    (∀ (g N : Nat) (os : Option Nat) (c : Cursor) (pStr : Option Nat) (len : Nat),
      N < W → c.filePos = N →
      mm_file.read g N os c pStr len = { ret := 0, pStr := pStr, cursor := c, calls := [] }) := by
  refine ⟨by decide, by decide, by decide, by decide, ?_⟩
  intro g N os c pStr len hN hfp
  have hws : wsub N c.filePos = 0 := by
    rw [hfp]
    simp only [wsub, W] at *
    omega
  simp [read, hws]

/-- A `seek` that returned a pointer after issuing OS calls went through the
remap: the cursor it leaves holds the window placed for the request. -/
theorem seek_remap_success (g N : Nat) (os : Option Nat) (c : Cursor) (pos want p : Nat)
    (hp : (seek g N os c pos want).ptr = some p) (hcalls : (seek g N os c pos want).calls ≠ []) :
    ¬(N = 0 ∨ N < wadd pos want) ∧
    (seek g N os c pos want).cursor.filePos = pos ∧
    (seek g N os c pos want).cursor.max_buf_size = c.max_buf_size ∧
    (seek g N os c pos want).cursor.blockPos = (window g N c.max_buf_size pos want).1 ∧
    (seek g N os c pos want).cursor.blockSize = (window g N c.max_buf_size pos want).2 := by
  by_cases hrf : N = 0 ∨ N < wadd pos want
  · rw [seek_range_fail g N os c pos want hrf] at hp
    simp at hp
  · refine ⟨hrf, ?_⟩
    by_cases hs : c.view = none ∨
        ¬(c.blockPos ≤ pos ∧ wadd pos want ≤ wadd c.blockPos c.blockSize)
    · rw [seek_slow g N os c pos want hrf hs] at hp ⊢
      cases os with
      | none => simp at hp
      | some v => exact ⟨rfl, rfl, rfl, rfl⟩
    · obtain ⟨v, hv⟩ : ∃ v, c.view = some v := by
        cases hc : c.view with
        | none => exact absurd (Or.inl hc) hs
        | some v => exact ⟨v, rfl⟩
      have hc : c.blockPos ≤ pos ∧ wadd pos want ≤ wadd c.blockPos c.blockSize := by
        by_contra hcon
        exact hs (Or.inr hcon)
      rw [seek_fast g N os c pos want v hrf hv hc.1 hc.2] at hcalls
      simp at hcalls

theorem map_success (g N : Nat) (os : Option Nat) (pos want buf : Nat) (c : Cursor)
    (calls : List OsCall) (hm : mm_file.map g N os pos want buf = (some c, calls)) :
    ¬(N = 0 ∨ N < wadd pos want) ∧ c.filePos = pos ∧
    c.max_buf_size = min (buf / g * g) N ∧
    c.blockPos = (window g N (min (buf / g * g) N) pos want).1 ∧
    c.blockSize = (window g N (min (buf / g * g) N) pos want).2 := by
  by_cases hrf : N = 0 ∨ N < wadd pos want
  · rw [map_range_fail g N os pos want buf hrf] at hm
    simp at hm
  · refine ⟨hrf, ?_⟩
    rw [map_placed g N os pos want buf hrf] at hm
    cases os with
    | none => simp at hm
    | some v =>
        simp only [Option.map_some', Prod.mk.injEq, Option.some.injEq] at hm
        obtain ⟨hc, _⟩ := hm
        subst hc
        exact ⟨rfl, rfl, rfl, rfl⟩

/-- C13 fails as stated: file of 10 bytes, granularity 4, cursor from
`map(0, 0, 4)`.  The request `seek(8, 2)` demands `2 + 0 ≤ 4` bytes from the
aligned start, yet the remap is clamped to end-of-file and maps `[4, 10)`:
`blockSize = 6` exceeds `maxWindow = 4`. -/
theorem seek_eof_clamp_exceeds_ceiling :
    mm_file.map 4 10 (some 1000) 0 0 4 =
      (some ⟨some 1000, 0, 0, 4, 4⟩, [OsCall.mmap 4 0 (some 1000)]) ∧
    Cursor.seek 4 10 (some 2000) ⟨some 1000, 0, 0, 4, 4⟩ 8 0 2 =
      { ptr := some 2004, ready := 2, cursor := ⟨some 2000, 8, 4, 6, 4⟩,
        calls := [OsCall.munmap (some 1000) 4, OsCall.mmap 6 4 (some 2000)] } ∧
    (⟨some 2000, 8, 4, 6, 4⟩ : Cursor).max_buf_size < (⟨some 2000, 8, 4, 6, 4⟩ : Cursor).blockSize ∧
    ¬(2 + (8 - (align 4 8).1) > (⟨some 2000, 8, 4, 6, 4⟩ : Cursor).max_buf_size) := by
  decide

/-- C13, amended: after every successful `map`, and every successful `seek`
that establishes a new window, for a request `(pos, want)`:
`blockSize > maxWindow` holds only if the request demanded more than
`maxWindow` (`want + (pos - alignDown(pos)) > maxWindow`), or the window was
clamped to end-of-file, where it is `[alignDown(N - maxWindow), N)` and
exceeds `maxWindow` by less than the granularity. -/
theorem window_exceeds_ceiling_on_demand_or_at_eof (g N : Nat) (hg : 0 < g) (hNW : N < W)
    (pos want : Nat) :
    (∀ (os : Option Nat) (buf : Nat) (c : Cursor) (calls : List OsCall),
      mm_file.map g N os pos want buf = (some c, calls) →
      c.max_buf_size < c.blockSize →
      c.max_buf_size < want + (pos - (align g pos).1) ∨
      (c.blockPos = (align g (N - c.max_buf_size)).1 ∧ c.blockPos + c.blockSize = N ∧
        c.blockSize < c.max_buf_size + g)) ∧
    (∀ (c : Cursor) (st : OsState), Reachable g N c st →
      ∀ (os : Option Nat) (p : Nat),
        (seek g N os c pos want).ptr = some p → (seek g N os c pos want).calls ≠ [] →
        (seek g N os c pos want).cursor.max_buf_size < (seek g N os c pos want).cursor.blockSize →
        (seek g N os c pos want).cursor.max_buf_size < want + (pos - (align g pos).1) ∨
        ((seek g N os c pos want).cursor.blockPos =
            (align g (N - (seek g N os c pos want).cursor.max_buf_size)).1 ∧
          (seek g N os c pos want).cursor.blockPos + (seek g N os c pos want).cursor.blockSize = N ∧
          (seek g N os c pos want).cursor.blockSize <
            (seek g N os c pos want).cursor.max_buf_size + g)) := by
  have hdl := Nat.mod_le pos g
  have hal : pos - (align g pos).1 = pos % g := by
    simp only [align]; omega
  rw [hal]
  constructor
  · intro os buf c calls hm hbig
    obtain ⟨_, _, h3, h4, h5⟩ := map_success g N os pos want buf c calls hm
    have hmx : min (buf / g * g) N ≤ N := Nat.min_le_right _ _
    obtain ⟨_, w2, _⟩ := window_size g N (min (buf / g * g) N) pos want hg hNW hmx
    rw [h3, h5] at hbig
    rw [h3, h4, h5]
    rcases w2 hbig with h | h
    · exact Or.inl h
    · exact Or.inr ⟨h.1, h.2.1, h.2.2.1⟩
  · intro c st hr os p hp hcalls hbig
    have hmx := (reachable_consistent g N hNW c st hr).1
    obtain ⟨_, _, h3, h4, h5⟩ := seek_remap_success g N os c pos want p hp hcalls
    obtain ⟨_, w2, _⟩ := window_size g N c.max_buf_size pos want hg hNW hmx
    rw [h3, h5] at hbig
    rw [h3, h4, h5]
    rcases w2 hbig with h | h
    · exact Or.inl h
    · exact Or.inr ⟨h.1, h.2.1, h.2.2.1⟩

theorem window_exceeds_ceiling_on_demand_or_at_eof_witness :
    (seek 4 10 (some 2000) ⟨some 1000, 0, 0, 4, 4⟩ 8 2).cursor.max_buf_size <
        2 + (8 - (align 4 8).1) ∨
      ((seek 4 10 (some 2000) ⟨some 1000, 0, 0, 4, 4⟩ 8 2).cursor.blockPos =
          (align 4 (10 - (seek 4 10 (some 2000) ⟨some 1000, 0, 0, 4, 4⟩ 8 2).cursor.max_buf_size)).1 ∧
        (seek 4 10 (some 2000) ⟨some 1000, 0, 0, 4, 4⟩ 8 2).cursor.blockPos +
          (seek 4 10 (some 2000) ⟨some 1000, 0, 0, 4, 4⟩ 8 2).cursor.blockSize = 10 ∧
        (seek 4 10 (some 2000) ⟨some 1000, 0, 0, 4, 4⟩ 8 2).cursor.blockSize <
          (seek 4 10 (some 2000) ⟨some 1000, 0, 0, 4, 4⟩ 8 2).cursor.max_buf_size + 4) :=
  (window_exceeds_ceiling_on_demand_or_at_eof 4 10 (by decide) (by decide) 8 2).2
    ⟨some 1000, 0, 0, 4, 4⟩ (OsState.run { live := [], faults := 0 } [OsCall.mmap 4 0 (some 1000)])
    ⟨some 1000, 0, 0, 4, ⟨some 1000, 0, 0, 4, 4⟩, [OsCall.mmap 4 0 (some 1000)],
      by decide, by decide, by decide, by decide, Steps.refl⟩
    (some 2000) 2004 (by decide) (by decide) (by decide)

/-- C15 fails as stated: file of 10 bytes, granularity 4, cursor from
`map(0, 0, 4)` with window `[0, 4)`.  The request `seek(4, 0)` is in range and
passes the fast-path test, leaving `filePos = 4 = blockPos + blockSize`; and
`map(10, 0, 4)` succeeds with `filePos = 10 = blockPos + blockSize`. -/
theorem seek_zero_length_at_window_end :
    4 + 0 ≤ 10 ∧
    Cursor.seek 4 10 none ⟨some 1000, 0, 0, 4, 4⟩ 4 0 0 =
      { ptr := some 1004, ready := 0, cursor := ⟨some 1000, 4, 0, 4, 4⟩, calls := [] } ∧
    ¬((⟨some 1000, 4, 0, 4, 4⟩ : Cursor).filePos <
      (⟨some 1000, 4, 0, 4, 4⟩ : Cursor).blockPos + (⟨some 1000, 4, 0, 4, 4⟩ : Cursor).blockSize) ∧
    mm_file.map 4 10 (some 1000) 10 0 4 =
      (some ⟨some 1000, 10, 4, 6, 4⟩, [OsCall.mmap 6 4 (some 1000)]) ∧
    ¬((⟨some 1000, 10, 4, 6, 4⟩ : Cursor).filePos <
      (⟨some 1000, 10, 4, 6, 4⟩ : Cursor).blockPos + (⟨some 1000, 10, 4, 6, 4⟩ : Cursor).blockSize) := by
  decide

/-- C15, amended: after every successful `map` and every successful `seek`
for a request with `pos + want ≤ fileSize` (any `want`, `want = 0` and
`pos = fileSize` included), the cursor satisfies `filePos = pos`,
`blockPos ≤ filePos` and `filePos + want ≤ blockPos + blockSize`; so
`filePos ≤ blockPos + blockSize`, strictly when `want > 0`. -/
theorem filePos_inside_window (g N : Nat) (hg : 0 < g) (hNW : N < W) (pos want : Nat)
    (hrange : pos + want ≤ N) :
    (∀ (os : Option Nat) (buf : Nat) (c : Cursor) (calls : List OsCall),
      mm_file.map g N os pos want buf = (some c, calls) →
      c.filePos = pos ∧ c.blockPos ≤ c.filePos ∧ c.filePos + want ≤ c.blockPos + c.blockSize ∧
      (0 < want → c.filePos < c.blockPos + c.blockSize)) ∧
    (∀ (c : Cursor) (st : OsState), Reachable g N c st →
      ∀ (os : Option Nat) (ready p : Nat),
        (Cursor.seek g N os c pos ready want).ptr = some p →
        (Cursor.seek g N os c pos ready want).cursor.filePos = pos ∧
        (Cursor.seek g N os c pos ready want).cursor.blockPos ≤
          (Cursor.seek g N os c pos ready want).cursor.filePos ∧
        (Cursor.seek g N os c pos ready want).cursor.filePos + want ≤
          (Cursor.seek g N os c pos ready want).cursor.blockPos +
            (Cursor.seek g N os c pos ready want).cursor.blockSize ∧
        (0 < want → (Cursor.seek g N os c pos ready want).cursor.filePos <
          (Cursor.seek g N os c pos ready want).cursor.blockPos +
            (Cursor.seek g N os c pos ready want).cursor.blockSize)) := by
  constructor
  · intro os buf c calls hm
    obtain ⟨_, h2, _, h4, h5⟩ := map_success g N os pos want buf c calls hm
    have hl := window_legit g N (min (buf / g * g) N) pos want hNW (Nat.min_le_right _ _) hrange
    rw [h2, h4, h5]
    exact ⟨rfl, hl.1, hl.2.1, fun _ => by omega⟩
  · intro c st hr os ready p hp
    rw [Cursor.seek_ptr] at hp
    rw [Cursor.seek_cursor]
    obtain ⟨_, h2, h3, h4, _⟩ := seek_legit g N hNW os c st pos want p hrange
      (reachable_consistent g N hNW c st hr) hp
    rw [h2]
    exact ⟨rfl, h3, h4, fun _ => by omega⟩

theorem filePos_inside_window_witness :
    (Cursor.seek 4 10 none ⟨some 1000, 0, 0, 4, 4⟩ 4 0 0).cursor.filePos = 4 ∧
    (Cursor.seek 4 10 none ⟨some 1000, 0, 0, 4, 4⟩ 4 0 0).cursor.filePos + 0 ≤
      (Cursor.seek 4 10 none ⟨some 1000, 0, 0, 4, 4⟩ 4 0 0).cursor.blockPos +
        (Cursor.seek 4 10 none ⟨some 1000, 0, 0, 4, 4⟩ 4 0 0).cursor.blockSize :=
  have h := (filePos_inside_window 4 10 (by decide) (by decide) 4 0 (by decide)).2
    ⟨some 1000, 0, 0, 4, 4⟩ (OsState.run { live := [], faults := 0 } [OsCall.mmap 4 0 (some 1000)])
    ⟨some 1000, 0, 0, 4, ⟨some 1000, 0, 0, 4, 4⟩, [OsCall.mmap 4 0 (some 1000)],
      by decide, by decide, by decide, by decide, Steps.refl⟩
    none 0 1004 (by decide)
  ⟨h.1, h.2.2.1⟩

/-- C16 fails: no file size, granularity, cursor created by `map` and request
inside the file exist for which a successful remap that takes the end-of-file
branch (slide left to `fileSize - maxWindow`, then re-align) leaves
`blockSize < maxWindow`. -/
theorem no_eof_remap_below_ceiling :
    ¬∃ (g N : Nat) (c : Cursor) (st : OsState) (os : Option Nat) (pos want p : Nat),
        0 < g ∧ N < W ∧ Reachable g N c st ∧ pos + want ≤ N ∧
        (seek g N os c pos want).ptr = some p ∧ (seek g N os c pos want).calls ≠ [] ∧
        want + (pos - (align g pos).1) < c.max_buf_size ∧
        N < (align g pos).1 + c.max_buf_size ∧
        (seek g N os c pos want).cursor.blockSize <
          (seek g N os c pos want).cursor.max_buf_size := by
  rintro ⟨g, N, c, st, os, pos, want, p, hg, hNW, hr, _, hp, hcalls, _, _, hlt⟩
  have hmx := (reachable_consistent g N hNW c st hr).1
  obtain ⟨_, _, h3, _, h5⟩ := seek_remap_success g N os c pos want p hp hcalls
  have w1 := (window_size g N c.max_buf_size pos want hg hNW hmx).1
  rw [h3, h5] at hlt
  omega

/-- C16, amended: for every file size, granularity, cursor created by `map`
(file not reopened) and request `(pos, want)` with `pos + want ≤ fileSize`,
every successful remap leaves `blockSize ≥ maxWindow`; the one that takes the
end-of-file branch (slide left to `fileSize - maxWindow`, then re-align)
leaves the window `[alignDown(N - maxWindow), N)` with
`maxWindow ≤ blockSize < maxWindow + g`: re-aligning can only grow it. -/
theorem eof_remap_at_least_ceiling (g N : Nat) (hg : 0 < g) (hNW : N < W) (c : Cursor)
    (st : OsState) (hr : Reachable g N c st) (os : Option Nat) (pos want p : Nat)
    (hrange : pos + want ≤ N) (hp : (seek g N os c pos want).ptr = some p)
    (hcalls : (seek g N os c pos want).calls ≠ []) :
    (seek g N os c pos want).cursor.max_buf_size ≤ (seek g N os c pos want).cursor.blockSize ∧
    (want + (pos - (align g pos).1) < c.max_buf_size →
      N < (align g pos).1 + c.max_buf_size →
      (seek g N os c pos want).cursor.blockPos = (align g (N - c.max_buf_size)).1 ∧
      (seek g N os c pos want).cursor.blockPos + (seek g N os c pos want).cursor.blockSize = N ∧
      (seek g N os c pos want).cursor.blockSize < c.max_buf_size + g) := by
  have hmx := (reachable_consistent g N hNW c st hr).1
  obtain ⟨_, _, h3, h4, h5⟩ := seek_remap_success g N os c pos want p hp hcalls
  obtain ⟨w1, _, _, w4, _⟩ := window_size g N c.max_buf_size pos want hg hNW hmx
  have hdl := Nat.mod_le pos g
  have hal : (align g pos).1 = pos - pos % g := by simp only [align]
  rw [h3, h4, h5, hal]
  refine ⟨w1, ?_⟩
  intro hd hover
  apply w4
  · simp only [wadd, W] at *; omega
  · simp only [wsub, W] at *; omega

theorem eof_remap_at_least_ceiling_witness :
    (seek 4 10 (some 2000) ⟨some 1000, 0, 0, 4, 4⟩ 8 2).cursor.max_buf_size ≤
      (seek 4 10 (some 2000) ⟨some 1000, 0, 0, 4, 4⟩ 8 2).cursor.blockSize ∧
    (seek 4 10 (some 2000) ⟨some 1000, 0, 0, 4, 4⟩ 8 2).cursor.blockPos +
      (seek 4 10 (some 2000) ⟨some 1000, 0, 0, 4, 4⟩ 8 2).cursor.blockSize = 10 :=
  have h := eof_remap_at_least_ceiling 4 10 (by decide) (by decide) ⟨some 1000, 0, 0, 4, 4⟩
    (OsState.run { live := [], faults := 0 } [OsCall.mmap 4 0 (some 1000)])
    ⟨some 1000, 0, 0, 4, ⟨some 1000, 0, 0, 4, 4⟩, [OsCall.mmap 4 0 (some 1000)],
      by decide, by decide, by decide, by decide, Steps.refl⟩
    (some 2000) 8 2 2004 (by decide) (by decide) (by decide)
  ⟨h.1, (h.2 (by decide) (by decide)).2.1⟩

/-- A mapping request in the calls of `seek` is the request for the window
placed for `(pos, want)`, and a granted one leaves that window in the cursor. -/
theorem seek_mmap_mem (g N : Nat) (os : Option Nat) (c : Cursor) (pos want len off : Nat)
    (r : Option Nat) (h : OsCall.mmap len off r ∈ (seek g N os c pos want).calls) :
    ¬(N = 0 ∨ N < wadd pos want) ∧
    len = (window g N c.max_buf_size pos want).2 ∧ off = (window g N c.max_buf_size pos want).1 ∧
    (r ≠ none → (seek g N os c pos want).cursor.blockPos = off ∧
      (seek g N os c pos want).cursor.blockSize = len) := by
  by_cases hrf : N = 0 ∨ N < wadd pos want
  · rw [seek_range_fail g N os c pos want hrf] at h
    simp at h
  · refine ⟨hrf, ?_⟩
    by_cases hs : c.view = none ∨
        ¬(c.blockPos ≤ pos ∧ wadd pos want ≤ wadd c.blockPos c.blockSize)
    · rw [seek_slow g N os c pos want hrf hs] at h ⊢
      simp only [List.mem_append, List.mem_singleton] at h
      rcases h with h | h
      · cases hv : c.view <;> simp [Cursor.destroy, hv] at h
      · injection h with h1 h2 h3
        subst h1 h2 h3
        refine ⟨rfl, rfl, ?_⟩
        intro hr
        cases r with
        | none => exact absurd rfl hr
        | some v => exact ⟨rfl, rfl⟩
    · obtain ⟨v, hv⟩ : ∃ v, c.view = some v := by
        cases hc : c.view with
        | none => exact absurd (Or.inl hc) hs
        | some v => exact ⟨v, rfl⟩
      have hc : c.blockPos ≤ pos ∧ wadd pos want ≤ wadd c.blockPos c.blockSize := by
        by_contra hcon
        exact hs (Or.inr hcon)
      rw [seek_fast g N os c pos want v hrf hv hc.1 hc.2] at h
      simp at h

theorem map_mmap_mem (g N : Nat) (os : Option Nat) (pos want buf len off : Nat)
    (r : Option Nat) (h : OsCall.mmap len off r ∈ (mm_file.map g N os pos want buf).2) :
    ¬(N = 0 ∨ N < wadd pos want) ∧
    len = (window g N (min (buf / g * g) N) pos want).2 ∧
    off = (window g N (min (buf / g * g) N) pos want).1 ∧
    (∀ c, (mm_file.map g N os pos want buf).1 = some c → c.blockPos = off ∧ c.blockSize = len) := by
  by_cases hrf : N = 0 ∨ N < wadd pos want
  · rw [map_range_fail g N os pos want buf hrf] at h
    simp at h
  · refine ⟨hrf, ?_⟩
    rw [map_placed g N os pos want buf hrf] at h ⊢
    simp only [List.mem_singleton] at h
    injection h with h1 h2 h3
    subst h1 h2 h3
    refine ⟨rfl, rfl, ?_⟩
    intro c hc
    cases r with
    | none => simp at hc
    | some v =>
        simp only [Option.map_some', Option.some.injEq] at hc
        subst hc
        exact ⟨rfl, rfl⟩

/-- The two tests of the end-of-file branch, from either reading of the
conditions on the request. -/
theorem eof_branch_taken (g N mx pos want : Nat) (hNW : N < W)
    (hrf : ¬(N = 0 ∨ N < wadd pos want))
    (hcond : (wadd want (pos - (align g pos).1) < mx ∧ N < wadd (align g pos).1 mx) ∨
      (pos + want ≤ N ∧ want + (pos - (align g pos).1) < mx ∧ N < (align g pos).1 + mx)) :
    wadd want (pos % g) < mx ∧ wsub N (pos - pos % g) < mx := by
  have hdl := Nat.mod_le pos g
  have hal : (align g pos).1 = pos - pos % g := by simp only [align]
  have hal2 : pos - (pos - pos % g) = pos % g := by omega
  rw [hal, hal2] at hcond
  simp only [wadd, wsub, W] at *
  omega

/-- Shape of the end-of-file clamp, for `seek` and for `map`.  With
`maxWindow ≤ fileSize` and `g > 0`, when `want + (pos - alignDown(pos)) <
maxWindow` and `alignDown(pos) + maxWindow > fileSize` hold as the `size_t`
values the code computes, or as exact sums for a request with
`pos + want ≤ fileSize`: the mapping requested is
`[alignDown(fileSize - maxWindow), fileSize)`, it ends at end-of-file, its
size is less than `maxWindow + g`, and it is the cursor's window once the OS
has granted it. -/
theorem eof_clamp_window_shape (g N : Nat) (hg : 0 < g) (hNW : N < W) (mx pos want : Nat)
    (hmx : mx ≤ N)
    (hcond : (wadd want (pos - (align g pos).1) < mx ∧ N < wadd (align g pos).1 mx) ∨
      (pos + want ≤ N ∧ want + (pos - (align g pos).1) < mx ∧ N < (align g pos).1 + mx)) :
    (∀ (os : Option Nat) (c : Cursor), c.max_buf_size = mx →
      ∀ (len off : Nat) (r : Option Nat),
        OsCall.mmap len off r ∈ (seek g N os c pos want).calls →
        off = (align g (N - mx)).1 ∧ off + len = N ∧ len < mx + g ∧
        (r ≠ none → (seek g N os c pos want).cursor.blockPos = off ∧
          (seek g N os c pos want).cursor.blockSize = len)) ∧
    (∀ (os : Option Nat) (buf : Nat), min (buf / g * g) N = mx →
      ∀ (len off : Nat) (r : Option Nat),
        OsCall.mmap len off r ∈ (mm_file.map g N os pos want buf).2 →
        off = (align g (N - mx)).1 ∧ off + len = N ∧ len < mx + g ∧
        (∀ c, (mm_file.map g N os pos want buf).1 = some c →
          c.blockPos = off ∧ c.blockSize = len)) := by
  obtain ⟨_, _, _, w4, _⟩ := window_size g N mx pos want hg hNW hmx
  constructor
  · intro os c hc len off r hmem
    obtain ⟨hrf, h1, h2, h3⟩ := seek_mmap_mem g N os c pos want len off r hmem
    obtain ⟨b1, b2⟩ := eof_branch_taken g N mx pos want hNW hrf hcond
    rw [hc] at h1 h2
    rw [h1, h2] at h3 ⊢
    obtain ⟨e1, e2, e3⟩ := w4 b1 b2
    exact ⟨e1, e2, e3, h3⟩
  · intro os buf hb len off r hmem
    obtain ⟨hrf, h1, h2, h3⟩ := map_mmap_mem g N os pos want buf len off r hmem
    obtain ⟨b1, b2⟩ := eof_branch_taken g N mx pos want hNW hrf hcond
    rw [hb] at h1 h2
    rw [h1, h2] at h3 ⊢
    obtain ⟨e1, e2, e3⟩ := w4 b1 b2
    exact ⟨e1, e2, e3, h3⟩

/-- `Cursor::seek` for a request inside the file, answered with a pointer:
what it reports as ready. -/
theorem cursor_seek_legit_ready (g N : Nat) (hNW : N < W) (os : Option Nat) (c : Cursor)
    (st : OsState) (pos ready want p : Nat) (hrange : pos + want ≤ N) (h : Consistent g N c st)
    (hp : (Cursor.seek g N os c pos ready want).ptr = some p) :
    (Cursor.seek g N os c pos ready want).cursor.filePos = pos ∧
    want ≤ (Cursor.seek g N os c pos ready want).ready ∧
    pos + (Cursor.seek g N os c pos ready want).ready ≤ N ∧
    (Cursor.seek g N os c pos ready want).cursor.blockPos ≤ pos ∧
    (Cursor.seek g N os c pos ready want).ready =
      (Cursor.seek g N os c pos ready want).cursor.blockPos +
        (Cursor.seek g N os c pos ready want).cursor.blockSize - pos ∧
    ∃ v, (Cursor.seek g N os c pos ready want).cursor.view = some v ∧
      p = v + (pos - (Cursor.seek g N os c pos ready want).cursor.blockPos) := by
  rw [Cursor.seek_ptr] at hp
  obtain ⟨hv, hfpos, h1, h2, h3⟩ := seek_legit g N hNW os c st pos want p hrange h hp
  have hready : (Cursor.seek g N os c pos ready want).ready =
      wsub (seek g N os c pos want).cursor.blockSize
        (wsub (seek g N os c pos want).cursor.filePos (seek g N os c pos want).cursor.blockPos) := by
    simp only [Cursor.seek, hp]
  rw [Cursor.seek_cursor, hready, hfpos]
  generalize (seek g N os c pos want).cursor = c2 at *
  have hrd : wsub c2.blockSize (wsub pos c2.blockPos) = c2.blockPos + c2.blockSize - pos := by
    simp only [wsub, W] at *
    omega
  rw [hrd]
  exact ⟨rfl, by omega, by omega, h1, rfl, hv⟩

theorem read_eq (g N : Nat) (os : Option Nat) (c : Cursor) (pStr : Option Nat) (len : Nat) :
    read g N os c pStr len =
      if min len (wsub N c.filePos) = 0 then
        { ret := 0, pStr := pStr, cursor := c, calls := [] }
      else
        match (Cursor.seek g N os c c.filePos 0 (min len (wsub N c.filePos))).ptr with
        | some p =>
            { ret := toLongLong (Cursor.seek g N os c c.filePos 0 (min len (wsub N c.filePos))).ready,
              pStr := some p,
              cursor :=
                { (Cursor.seek g N os c c.filePos 0 (min len (wsub N c.filePos))).cursor with
                  filePos := wadd
                    (Cursor.seek g N os c c.filePos 0 (min len (wsub N c.filePos))).cursor.filePos
                    (Cursor.seek g N os c c.filePos 0 (min len (wsub N c.filePos))).ready },
              calls := (Cursor.seek g N os c c.filePos 0 (min len (wsub N c.filePos))).calls }
        | none =>
            { ret := END_OF_FILE, pStr := none,
              cursor := (Cursor.seek g N os c c.filePos 0 (min len (wsub N c.filePos))).cursor,
              calls := (Cursor.seek g N os c c.filePos 0 (min len (wsub N c.filePos))).calls } := by
  have hmin : (if len > wsub N c.filePos then wsub N c.filePos else len) =
      min len (wsub N c.filePos) := by
    split_ifs with h
    · exact (Nat.min_eq_right (Nat.le_of_lt h)).symm
    · exact (Nat.min_eq_left (Nat.le_of_not_lt h)).symm
  simp only [read, hmin, ne_eq, ite_not]

theorem read_consistent (g N : Nat) (hN : N < W) (os : Option Nat) (c : Cursor) (st : OsState)
    (pStr : Option Nat) (len : Nat) (h : Consistent g N c st) :
    Consistent g N (read g N os c pStr len).cursor (st.run (read g N os c pStr len).calls) := by
  have hfp := h.2.2.2.2.1
  rw [read_eq]
  split_ifs with hl
  · exact h
  · have hsw := seek_consistent g N hN os c st c.filePos (min len (wsub N c.filePos)) hfp h
    rw [← Cursor.seek_cursor g N os c c.filePos 0, ← Cursor.seek_calls g N os c c.filePos 0] at hsw
    cases hp : (Cursor.seek g N os c c.filePos 0 (min len (wsub N c.filePos))).ptr with
    | none => exact hsw
    | some p =>
        obtain ⟨i1, i2, i3, i4, _, i6, i7, i8⟩ := hsw
        refine ⟨i1, ?_, i3, i4, ?_, i6, i7, i8⟩
        · rw [i2]
          rfl
        · simp only [wadd, W]
          omega

theorem stepsWithRead_consistent (g N : Nat) (hN : N < W) (c0 c : Cursor) (st0 st : OsState)
    (h0 : Consistent g N c0 st0) (h : StepsWithRead g N c0 st0 c st) : Consistent g N c st := by
  induction h with
  | refl => exact h0
  | seek c1 st1 os pos ready want _ hp _ ih =>
      rw [Cursor.seek_cursor, Cursor.seek_calls]
      exact seek_consistent g N hN os c1 st1 pos want hp ih
  | resetBufferSize c1 st1 os _ ih => exact reset_consistent g N hN os c1 st1 ih
  | read c1 st1 os pStr len _ _ ih => exact read_consistent g N hN os c1 st1 pStr len ih

theorem reachableWithRead_consistent (g N : Nat) (hN : N < W) (c : Cursor) (st : OsState)
    (h : ReachableWithRead g N c st) : Consistent g N c st := by
  obtain ⟨os, pos, want, buf, c0, calls, hp, _, _, hm, hs⟩ := h
  exact stepsWithRead_consistent g N hN c0 c _ st
    (map_consistent g N hN os pos want buf hp c0 calls hm) hs

/-- C19: streaming read advances by what it returns.  For every cursor
obtained from `map` (by any `seek`, `resetBufferSize` and `read` calls) with
`filePos < fileSize` and every `len > 0`: if the underlying
`seek(filePos, min(len, fileSize - filePos))` returns a pointer, `read` returns
`n = readyLen` with `n ≥ min(len, fileSize - filePos)`, stores in `*pStr` that
pointer, which is `view + (old filePos - blockPos)`, and leaves
`filePos = old filePos + n ≤ fileSize`; with `len = 0` it returns 0 and changes
neither the cursor nor `*pStr`, and issues no OS call.  The file size is a
signed 64-bit quantity (`st_size`, `QuadPart`), hence below `2 ^ 63`. -/
theorem read_advances_by_what_it_returns (g N : Nat) (hg : 0 < g)
    (hN63 : N < 9223372036854775808) (c : Cursor) (st : OsState)
    (hr : ReachableWithRead g N c st) (os : Option Nat) (pStr : Option Nat) (len : Nat) :
    mm_file.read g N os c pStr 0 = { ret := 0, pStr := pStr, cursor := c, calls := [] } ∧
    (c.filePos < N → 0 < len →
      ∀ p, (Cursor.seek g N os c c.filePos 0 (min len (N - c.filePos))).ptr = some p →
        mm_file.read g N os c pStr len =
          { ret := ((Cursor.seek g N os c c.filePos 0 (min len (N - c.filePos))).ready : Int),
            pStr := some p,
            cursor :=
              { (Cursor.seek g N os c c.filePos 0 (min len (N - c.filePos))).cursor with
                filePos :=
                  c.filePos + (Cursor.seek g N os c c.filePos 0 (min len (N - c.filePos))).ready },
            calls := (Cursor.seek g N os c c.filePos 0 (min len (N - c.filePos))).calls } ∧
        min len (N - c.filePos) ≤
          (Cursor.seek g N os c c.filePos 0 (min len (N - c.filePos))).ready ∧
        c.filePos + (Cursor.seek g N os c c.filePos 0 (min len (N - c.filePos))).ready ≤ N ∧
        ∃ v, (Cursor.seek g N os c c.filePos 0 (min len (N - c.filePos))).cursor.view = some v ∧
          p = v + (c.filePos -
            (Cursor.seek g N os c c.filePos 0 (min len (N - c.filePos))).cursor.blockPos)) := by
  have hNW : N < W := by simp only [W]; omega
  constructor
  · rw [read_eq]
    simp
  · intro hfp hlen p hp
    have hcons := reachableWithRead_consistent g N hNW c st hr
    have hws : wsub N c.filePos = N - c.filePos := by
      simp only [wsub, W] at *; omega
    have hmin : min len (N - c.filePos) ≠ 0 := by
      rw [Nat.min_def]; split_ifs <;> omega
    have hrange : c.filePos + min len (N - c.filePos) ≤ N := by
      have := Nat.min_le_right len (N - c.filePos)
      omega
    obtain ⟨e1, e2, e3, _, _, e6⟩ := cursor_seek_legit_ready g N hNW os c st c.filePos 0
      (min len (N - c.filePos)) p hrange hcons hp
    refine ⟨?_, e2, e3, e6⟩
    rw [read_eq, hws, if_neg hmin, hp]
    simp only [e1]
    have hcast : toLongLong (Cursor.seek g N os c c.filePos 0 (min len (N - c.filePos))).ready =
        ((Cursor.seek g N os c c.filePos 0 (min len (N - c.filePos))).ready : Int) := by
      simp only [toLongLong]
      rw [if_pos (by omega)]
    have hadd : wadd c.filePos (Cursor.seek g N os c c.filePos 0 (min len (N - c.filePos))).ready =
        c.filePos + (Cursor.seek g N os c c.filePos 0 (min len (N - c.filePos))).ready := by
      simp only [wadd, W] at *; omega
    rw [hcast, hadd]

theorem read_advances_by_what_it_returns_witness :
    min 1 (10 - 2) ≤ (Cursor.seek 4 10 none ⟨some 1000, 2, 0, 4, 4⟩ 2 0 (min 1 (10 - 2))).ready ∧
    2 + (Cursor.seek 4 10 none ⟨some 1000, 2, 0, 4, 4⟩ 2 0 (min 1 (10 - 2))).ready ≤ 10 :=
  have h := (read_advances_by_what_it_returns 4 10 (by decide) (by decide)
    ⟨some 1000, 2, 0, 4, 4⟩ (OsState.run { live := [], faults := 0 } [OsCall.mmap 4 0 (some 1000)])
    ⟨some 1000, 2, 0, 4, ⟨some 1000, 2, 0, 4, 4⟩, [OsCall.mmap 4 0 (some 1000)],
      by decide, by decide, by decide, by decide, StepsWithRead.refl⟩
    none none 1).2 (by decide) (by decide) 1002 (by decide)
  ⟨h.2.1, h.2.2.1⟩

theorem range_map_getElem? (l : List Nat) (k n : Nat) (h : k + n ≤ l.length) :
    (List.range n).map (fun i => l[k + i]?) = ((l.drop k).take n).map some := by
  apply List.ext_getElem
  · simp
    omega
  · intro i h1 h2
    simp at h1 h2
    simp [List.getElem_take, List.getElem_drop]

/-- Bytes read through the pointer that `Cursor::seek` returned for a request
inside the file, in the OS state its calls leave. -/
theorem cursor_seek_bytes (g N : Nat) (hNW : N < W) (os : Option Nat) (c : Cursor)
    (st : OsState) (pos ready want p : Nat) (hrange : pos + want ≤ N) (h : Consistent g N c st)
    (hp : (Cursor.seek g N os c pos ready want).ptr = some p) (file : List Nat) (i : Nat)
    (hi : i < (Cursor.seek g N os c pos ready want).ready) :
    (st.run (Cursor.seek g N os c pos ready want).calls).byteAt file (p + i) = file[pos + i]? := by
  obtain ⟨_, _, _, e4, e5, v, hv, hpv⟩ :=
    cursor_seek_legit_ready g N hNW os c st pos ready want p hrange h hp
  have hrun := seek_run g N hNW os c st pos want (by omega) h
  rw [← Cursor.seek_calls g N os c pos ready want, ← Cursor.seek_cursor g N os c pos ready want]
    at hrun
  rw [hrun]
  rw [e5] at hi
  generalize (Cursor.seek g N os c pos ready want).cursor = c2 at *
  simp only [Cursor.views, hv]
  rw [byteAt_view file v c2.blockPos c2.blockSize (p + i) (by omega) (by omega)]
  have he : c2.blockPos + (p + i - v) = pos + i := by omega
  rw [he]

end mm_file

namespace file_hash

open mm_file

theorem chunk_bytes_eq (file : List Nat) (c : Chunk) (h : c.pos + c.len ≤ file.length)
    (hb : ∀ i, i < c.len → c.mem.byteAt file (c.data + i) = file[c.pos + i]?) :
    c.bytes file = ((file.drop c.pos).take c.len).map some := by
  rw [← range_map_getElem? file c.pos c.len h]
  simp only [Chunk.bytes]
  apply List.map_congr_left
  intro i hi
  exact hb i (List.mem_range.mp hi)

theorem main_loop_scans (g N B : Nat) (hNW : N < W) (hB : 0 < B)
    (os : Nat → Option Nat) (hos : ∀ k, (os k).isSome) (file : List Nat)
    (hfile : file.length = N) :
    ∀ (fuel k : Nat) (cursor : Cursor) (st : OsState) (pos bytes file_size : Nat)
      (delivered : List Chunk),
      Consistent g N cursor st → pos + file_size = N → file_size < fuel →
      ∃ out, main_loop g N B os fuel k cursor st pos bytes file_size delivered =
          some (ScanOutcome.finished N (delivered ++ out)) ∧
        (out.flatMap fun c => List.range' c.pos c.len) = List.range' pos file_size ∧
        (∀ c ∈ out, 0 < c.len) ∧ (∀ c ∈ out.head?, c.pos = pos) ∧
        List.Chain' (fun a b => b.pos = a.pos + a.len) out ∧
        (∀ c ∈ out, c.bytes file = ((file.drop c.pos).take c.len).map some) ∧
        out.flatMap (Chunk.bytes file) = ((file.drop pos).take file_size).map some := by
  intro fuel
  induction fuel with
  | zero => intro k cursor st pos bytes file_size delivered _ _ hf; omega
  | succ fuel ih =>
      intro k cursor st pos bytes file_size delivered hc hsum hf
      by_cases hz : file_size = 0
      · refine ⟨[], ?_, ?_, ?_, ?_, ?_, ?_, ?_⟩
        · subst hz
          simp only [main_loop, if_true, List.append_nil]
          have : pos = N := by omega
          rw [this]
        · simp [hz]
        · simp
        · simp
        · simp
        · simp
        · simp [hz]
      · obtain ⟨want, hwant⟩ : ∃ want, want = (if file_size > B then B else file_size) := ⟨_, rfl⟩
        have hw1 : 0 < want ∧ want ≤ file_size := by
          rw [hwant]; split_ifs <;> omega
        have hrange : pos + want ≤ N := by omega
        have hwa : wadd pos want = pos + want := by simp only [wadd, W] at *; omega
        have hrf : ¬(N = 0 ∨ N < wadd pos want) := by omega
        have hsome := seek_ptr_isSome g N (os k) cursor pos want hrf (hos k)
        obtain ⟨p, hp⟩ := Option.isSome_iff_exists.mp hsome
        have hpc : (Cursor.seek g N (os k) cursor pos bytes want).ptr = some p := by
          rw [Cursor.seek_ptr]; exact hp
        have hc2 := seek_consistent g N hNW (os k) cursor st pos want (by omega) hc
        rw [← Cursor.seek_cursor g N (os k) cursor pos bytes want,
          ← Cursor.seek_calls g N (os k) cursor pos bytes want] at hc2
        obtain ⟨_, e2, e3, _, _, _⟩ :=
          cursor_seek_legit_ready g N hNW (os k) cursor st pos bytes want p hrange hc hpc
        have hbytes := cursor_seek_bytes g N hNW (os k) cursor st pos bytes want p hrange hc hpc file
        obtain ⟨rd, hrd⟩ : ∃ rd, rd = (Cursor.seek g N (os k) cursor pos bytes want).ready :=
          ⟨_, rfl⟩
        rw [← hrd] at e2 e3 hbytes
        have hrda : wadd pos rd = pos + rd := by simp only [wadd, W] at *; omega
        have hrds : wsub file_size rd = file_size - rd := by simp only [wsub, W] at *; omega
        obtain ⟨out, ho1, ho2, ho3, ho4, ho5, ho6, ho7⟩ :=
          ih (k + 1) (Cursor.seek g N (os k) cursor pos bytes want).cursor
            (st.run (Cursor.seek g N (os k) cursor pos bytes want).calls) (pos + rd) rd
            (file_size - rd)
            (delivered ++
              [Chunk.mk pos p rd (st.run (Cursor.seek g N (os k) cursor pos bytes want).calls)])
            hc2 (by omega) (by omega)
        have hcb : Chunk.bytes file
            (Chunk.mk pos p rd (st.run (Cursor.seek g N (os k) cursor pos bytes want).calls)) =
            ((file.drop pos).take rd).map some :=
          chunk_bytes_eq file _ (by simp only; omega) (fun i hi => hbytes i hi)
        refine ⟨Chunk.mk pos p rd (st.run (Cursor.seek g N (os k) cursor pos bytes want).calls)
          :: out,
          ?_, ?_, ?_, ?_, ?_, ?_, ?_⟩
        · simp only [main_loop, if_neg hz]
          rw [← hwant, hpc]
          simp only [← hrd, hrda, hrds]
          rw [ho1]
          simp
        · simp only [List.flatMap_cons, ho2]
          have hfs : file_size = file_size - rd + rd := by omega
          conv_rhs => rw [hfs]
          exact List.range'_append_1 pos rd (file_size - rd)
        · intro c hcm
          rcases List.mem_cons.mp hcm with h | h
          · rw [h]; exact (by omega : 0 < rd)
          · exact ho3 c h
        · simp
        · cases out with
          | nil => simp
          | cons o rest =>
              rw [List.chain'_cons]
              refine ⟨?_, ho5⟩
              have := ho4 o (by simp)
              simpa using this
        · intro c hcm
          rcases List.mem_cons.mp hcm with h | h
          · rw [h]; exact hcb
          · exact ho6 c h
        · simp only [List.flatMap_cons, ho7, hcb]
          rw [← List.map_append]
          congr 1
          have hfs : file_size = rd + (file_size - rd) := by omega
          conv_rhs => rw [hfs, List.take_add]
          rw [List.drop_drop]

/-- C2: full scan.  For every file of size `N > 0`, block size `B > 0` and
`maxWindow`, when every OS mapping call succeeds, the consumer loop of `main`
ends by its loop condition with `pos = N`; the chunks it delivered are
non-empty, each starts where the previous one ended, and their intervals
concatenate to `[0, N)`; the bytes the digest reads through each delivered
pointer, in the views live at that moment, are the file bytes of that
interval, so the digest receives exactly the bytes of the file, in order. -/
theorem main_full_scan (g N B maxWindow : Nat) (hg : 0 < g) (hN : 0 < N) (hNW : N < W)
    (hB : 0 < B) (os0 : Option Nat) (os : Nat → Option Nat) (bytes0 : Nat)
    (h0 : os0.isSome) (hos : ∀ k, (os k).isSome) (file : List Nat) (hfile : file.length = N)
    (fuel : Nat) (hfuel : N < fuel) :
    ∃ delivered, main g N B maxWindow os0 os bytes0 fuel =
        some (ScanOutcome.finished N delivered) ∧
      (delivered.flatMap fun c => List.range' c.pos c.len) = List.range N ∧
      (∀ c ∈ delivered, 0 < c.len) ∧
      List.Chain' (fun a b => b.pos = a.pos + a.len) delivered ∧
      (∀ c ∈ delivered, c.bytes file = ((file.drop c.pos).take c.len).map some) ∧
      delivered.flatMap (Chunk.bytes file) = file.map some := by
  have hwa : wadd 0 0 = 0 := by simp [wadd, W]
  have hrf : ¬(N = 0 ∨ N < wadd 0 0) := by omega
  obtain ⟨v, hv⟩ := Option.isSome_iff_exists.mp h0
  subst hv
  have hm := map_placed g N (some v) 0 0 maxWindow hrf
  rw [Option.map_some'] at hm
  have hc := map_consistent g N hNW (some v) 0 0 maxWindow (by simp [W]) _ _ hm
  obtain ⟨out, ho1, ho2, ho3, _, ho5, ho6, ho7⟩ :=
    main_loop_scans g N B hNW hB os hos file hfile fuel 0 _ _ 0 bytes0 N [] hc (by omega) hfuel
  refine ⟨out, ?_, ?_, ho3, ho5, ho6, ?_⟩
  · simp only [main, hm]
    rw [ho1]
    simp
  · rw [ho2, List.range_eq_range']
  · rw [ho7, List.drop_zero, ← hfile, List.take_length]

theorem main_full_scan_witness :
    main 4 10 4 4 (some 1000) (fun k => some (2000 + k)) 0 11 =
      some (ScanOutcome.finished 10
        [Chunk.mk 0 1000 4 { live := [⟨1000, 0, 4⟩], faults := 0 },
          Chunk.mk 4 2001 4 { live := [⟨2001, 4, 4⟩], faults := 0 },
          Chunk.mk 8 2006 2 { live := [⟨2002, 4, 6⟩], faults := 0 }]) ∧
    ∃ delivered, main 4 10 4 4 (some 1000) (fun k => some (2000 + k)) 0 11 =
        some (ScanOutcome.finished 10 delivered) ∧
      (delivered.flatMap fun c => List.range' c.pos c.len) = List.range 10 ∧
      (∀ c ∈ delivered, 0 < c.len) ∧
      List.Chain' (fun a b => b.pos = a.pos + a.len) delivered ∧
      (∀ c ∈ delivered, c.bytes [48, 49, 50, 51, 52, 53, 54, 55, 56, 57] =
        (([48, 49, 50, 51, 52, 53, 54, 55, 56, 57].drop c.pos).take c.len).map some) ∧
      delivered.flatMap (Chunk.bytes [48, 49, 50, 51, 52, 53, 54, 55, 56, 57]) =
        [48, 49, 50, 51, 52, 53, 54, 55, 56, 57].map some :=
  ⟨by decide,
    main_full_scan 4 10 4 4 (by decide) (by decide) (by decide) (by decide) (some 1000)
      (fun k => some (2000 + k)) 0 rfl (fun _ => rfl) [48, 49, 50, 51, 52, 53, 54, 55, 56, 57] rfl
      11 (by decide)⟩

end file_hash

namespace mm_file

/-- C17, evaluated where the code departs from it.  File of 20000 bytes,
granularity 4096, `maxWindow = 8192`.  The cursor comes from `map(0, 0, 8192)`
followed by a `seek(8192, 1)` whose mapping request the OS refused, so its
view is null.  For `seek(2^64 - 4096, 4096)` the `size_t` sum `pos + want`
wraps to 0 and passes the range check; `want + (pos - alignDown(pos)) = 4096
< 8192` and `alignDown(pos) + maxWindow > fileSize`, yet the test
`fileSize - blockPos < blockSize` is made on the wrapped difference 24096 and
fails: the mapping requested is 8192 bytes at offset `2^64 - 4096`, not
`[alignDown(20000 - 8192), 20000) = [8192, 20000)`.  `map(2^64 - 4096, 4096,
8192)` requests the same mapping. -/
theorem eof_clamp_missed_by_wrapped_request :
    Reachable 4096 20000 ⟨none, 0, 0, 0, 8192⟩ { live := [], faults := 0 } ∧
    wadd 18446744073709547520 4096 = 0 ∧
    4096 + (18446744073709547520 - (align 4096 18446744073709547520).1) < 8192 ∧
    20000 < (align 4096 18446744073709547520).1 + 8192 ∧ 8192 ≤ 20000 ∧
    wsub 20000 (align 4096 18446744073709547520).1 = 24096 ∧
    seek 4096 20000 (some 2000) ⟨none, 0, 0, 0, 8192⟩ 18446744073709547520 4096 =
      { ptr := some 2000,
        cursor := ⟨some 2000, 18446744073709547520, 18446744073709547520, 8192, 8192⟩,
        calls := [OsCall.mmap 8192 18446744073709547520 (some 2000)] } ∧
    mm_file.map 4096 20000 (some 2000) 18446744073709547520 4096 8192 =
      (some ⟨some 2000, 18446744073709547520, 18446744073709547520, 8192, 8192⟩,
        [OsCall.mmap 8192 18446744073709547520 (some 2000)]) ∧
    (align 4096 (20000 - 8192)).1 = 8192 ∧
    18446744073709547520 ≠ (align 4096 (20000 - 8192)).1 ∧
    18446744073709547520 + 8192 ≠ 20000 := by
  refine ⟨?_, by decide, by decide, by decide, by decide, by decide, by decide, by decide,
    by decide, by decide, by decide⟩
  refine ⟨some 1000, 0, 0, 8192, ⟨some 1000, 0, 0, 8192, 8192⟩, [OsCall.mmap 8192 0 (some 1000)],
    by decide, by decide, by decide, by decide, ?_⟩
  exact Steps.seek ⟨some 1000, 0, 0, 8192, 8192⟩ _ none 8192 0 1 Steps.refl (by decide) (by decide)

end mm_file
